import Mathlib

/-!
# Verification of the photoedit spectral analyzer and editing tools

This file gives a shallow embedding, over exact real/complex arithmetic, of the
numeric core of the photoedit repository:

* `FFTA` embeds the `FFTAnalyzer` module of `app.js` (the spectral analyzer of
  the specification): the iterative radix-2 Cooley–Tukey 1D FFT `fft1D` with its
  in-place bit-reversal permutation and power-of-two padding, the separable 2D
  driver `fft2D`, the grayscale conversion, the magnitude spectrum, and the
  log-scaled frequency-shifted visualization buffer `vizBuffer`.
* `ColorAdj` embeds `ColorAdjustments.applyToImageData` of
  `src/colorAdjustments.js` (per-channel RGB scaling with clamping).
* `Crop` embeds `CropTool.getCropDimensions`, `CropTool.isValidCropArea` and
  `CropTool.applyCrop` of `src/cropTool.js`.

JavaScript `Float32Array`s of machine floats are embedded as Lean lists of real
numbers (the parallel `real`/`imag` pairs as lists of complex numbers whose
`re`/`im` components track the two source arrays); all statements are over
real-number arithmetic, as the specification's tolerance clause directs.
-/

open Finset

/-! ## List access helpers

The JavaScript arrays are index-addressed; we embed them as `List`s and read
through `List.getD · 0`, writing through `List.set`. -/

/-- Reading a list after a `set`: the written value at the written (in-bounds)
index, the old value elsewhere. -/
theorem getD_set {α : Type} (a : List α) (i p : ℕ) (x d : α) :
    (a.set i x).getD p d =
      if p = i ∧ i < a.length then x else a.getD p d := by
  by_cases hpi : p = i
  · subst hpi
    by_cases hlt : p < a.length
    · simp [List.getD, List.getElem?_set_self, hlt]
    · simp [List.getD, List.set_eq_of_length_le (Nat.le_of_not_lt hlt), hlt]
  · simp [List.getD, List.getElem?_set_ne (fun h => hpi h.symm), hpi]

theorem getD_set_ne {α : Type} (a : List α) (i p : ℕ) (x d : α) (h : p ≠ i) :
    (a.set i x).getD p d = a.getD p d := by
  rw [getD_set]
  simp [h]

theorem getD_eq_of_lt {α : Type} (a : List α) (p : ℕ) (d : α)
    (h : p < a.length) : a.getD p d = a[p] := by
  simp [List.getD, List.getElem?_eq_getElem h]

theorem getD_eq_default_of_le {α : Type} (a : List α) (p : ℕ) (d : α)
    (h : a.length ≤ p) : a.getD p d = d := by
  simp [List.getD, List.getElem?_eq_none h]

/-! ## Bit reversal, abstractly

`bitRev k i` reverses the low `k` bits of `i`.  This is the mathematical
specification against which the incremental reversed counter of the source's
bit-reversal loop is verified. -/

/-- Reverse the low `k` bits of `i` (bits of `i` beyond the low `k` are
discarded). -/
def bitRev : ℕ → ℕ → ℕ
  | 0, _ => 0
  | k + 1, i => i % 2 * 2 ^ k + bitRev k (i / 2)

theorem bitRev_lt (k i : ℕ) : bitRev k i < 2 ^ k := by
  induction k generalizing i with
  | zero => simp [bitRev]
  | succ k ih =>
    have h1 : i % 2 ≤ 1 := Nat.le_of_lt_succ (Nat.mod_lt _ (by norm_num))
    have h2 := ih (i / 2)
    calc bitRev (k + 1) i = i % 2 * 2 ^ k + bitRev k (i / 2) := rfl
      _ < i % 2 * 2 ^ k + 2 ^ k := by omega
      _ ≤ 1 * 2 ^ k + 2 ^ k := by
          have := Nat.mul_le_mul_right (2 ^ k) h1
          omega
      _ = 2 ^ (k + 1) := by ring

theorem bitRev_zero (k : ℕ) : bitRev k 0 = 0 := by
  induction k with
  | zero => rfl
  | succ k ih => simp [bitRev, ih]

theorem bitRev_two_mul (k b : ℕ) : bitRev (k + 1) (2 * b) = bitRev k b := by
  simp [bitRev, Nat.mul_div_cancel_left b (by norm_num : 0 < 2),
    Nat.mul_mod_right]

theorem bitRev_two_mul_add_one (k b : ℕ) :
    bitRev (k + 1) (2 * b + 1) = 2 ^ k + bitRev k b := by
  have hmod : (2 * b + 1) % 2 = 1 := by omega
  have hdiv : (2 * b + 1) / 2 = b := by omega
  simp [bitRev, hmod, hdiv]

/-- Reversing `k+1` bits of `x + ε·2^k` (for `x < 2^k`, `ε < 2`) doubles the
`k`-bit reversal of `x` and appends `ε` as the new low bit. -/
theorem bitRev_succ_high (k : ℕ) : ∀ x ε, x < 2 ^ k → ε < 2 →
    bitRev (k + 1) (x + ε * 2 ^ k) = 2 * bitRev k x + ε := by
  induction k with
  | zero =>
    intro x ε hx hε
    interval_cases x
    interval_cases ε <;> simp [bitRev]
  | succ k ih =>
    intro x ε hx hε
    have hxε2 : (x + ε * 2 ^ (k + 1)) % 2 = x % 2 := by
      have : ε * 2 ^ (k + 1) = 2 * (ε * 2 ^ k) := by ring
      omega
    have hdiv : (x + ε * 2 ^ (k + 1)) / 2 = x / 2 + ε * 2 ^ k := by
      have h2 : ε * 2 ^ (k + 1) = 2 * (ε * 2 ^ k) := by ring
      omega
    have hx2 : x / 2 < 2 ^ k := by
      have := Nat.pow_succ 2 k
      omega
    calc bitRev (k + 2) (x + ε * 2 ^ (k + 1))
        = (x + ε * 2 ^ (k + 1)) % 2 * 2 ^ (k + 1) +
            bitRev (k + 1) ((x + ε * 2 ^ (k + 1)) / 2) := rfl
      _ = x % 2 * 2 ^ (k + 1) + bitRev (k + 1) (x / 2 + ε * 2 ^ k) := by
          rw [hxε2, hdiv]
      _ = x % 2 * 2 ^ (k + 1) + (2 * bitRev k (x / 2) + ε) := by
          rw [ih (x / 2) ε hx2 hε]
      _ = 2 * (x % 2 * 2 ^ k + bitRev k (x / 2)) + ε := by ring
      _ = 2 * bitRev (k + 1) x + ε := rfl

/-- `bitRev k` is an involution on `[0, 2^k)`. -/
theorem bitRev_bitRev (k : ℕ) : ∀ i, i < 2 ^ k → bitRev k (bitRev k i) = i := by
  induction k with
  | zero => intro i hi; interval_cases i; rfl
  | succ k ih =>
    intro i hi
    have hmod : i % 2 < 2 := Nat.mod_lt _ (by norm_num)
    have hdiv : i / 2 < 2 ^ k := by
      have := Nat.pow_succ 2 k
      omega
    have h1 : bitRev (k + 1) i = bitRev k (i / 2) + i % 2 * 2 ^ k := by
      simp [bitRev]; ring
    rw [h1, bitRev_succ_high k (bitRev k (i / 2)) (i % 2) (bitRev_lt k _) hmod,
      ih (i / 2) hdiv]
    omega

/-! ### Bitwise facts for the reversed counter -/

theorem testBit_two_pow_add_lt (k r : ℕ) (hr : r < 2 ^ k) (i : ℕ) :
    (2 ^ k + r).testBit i = if i = k then true else r.testBit i := by
  by_cases hik : i = k
  · subst hik
    have h1 : (2 ^ i + r) / 2 ^ i = 1 := by
      rw [Nat.add_div_left _ (Nat.pos_pow_of_pos i (by norm_num))]
      simp [Nat.div_eq_of_lt hr]
    simp [Nat.testBit_to_div_mod, h1]
  · rcases Nat.lt_or_ge i k with hlt | hgt
    · have hki : i + (k - i) = k := by omega
      have hsplit : 2 ^ k + r = 2 ^ i * 2 ^ (k - i) + r := by
        rw [← pow_add, hki]
      have hdiv : (2 ^ k + r) / 2 ^ i = 2 ^ (k - i) + r / 2 ^ i := by
        rw [hsplit, Nat.mul_add_div (Nat.pos_pow_of_pos i (by norm_num))]
      have heven : 2 ^ (k - i) % 2 = 0 := by
        have hne : k - i ≠ 0 := by omega
        rcases Nat.exists_eq_succ_of_ne_zero hne with ⟨m, hm⟩
        rw [hm, pow_succ]
        omega
      have hmod : (2 ^ (k - i) + r / 2 ^ i) % 2 = r / 2 ^ i % 2 := by omega
      simp [Nat.testBit_to_div_mod, hdiv, hmod, hik]
    · have hik' : k < i := by omega
      have hsum : 2 ^ k + r < 2 ^ i := by
        have h1 : 2 ^ k + r < 2 ^ (k + 1) := by
          have := Nat.pow_succ 2 k
          omega
        have h2 : 2 ^ (k + 1) ≤ 2 ^ i := Nat.pow_le_pow_right (by norm_num) (by omega)
        omega
      have hri : r < 2 ^ i := by omega
      simp [Nat.testBit_lt_two_pow hsum, Nat.testBit_lt_two_pow hri, hik]

theorem and_two_pow_of_lt (k r : ℕ) (hr : r < 2 ^ k) : r &&& 2 ^ k = 0 := by
  apply Nat.eq_of_testBit_eq
  intro i
  rw [Nat.testBit_and, Nat.testBit_two_pow]
  by_cases hik : k = i
  · subst hik
    simp [Nat.testBit_lt_two_pow hr]
  · simp [hik]

theorem add_and_two_pow (k r : ℕ) (hr : r < 2 ^ k) :
    (2 ^ k + r) &&& 2 ^ k = 2 ^ k := by
  apply Nat.eq_of_testBit_eq
  intro i
  rw [Nat.testBit_and, Nat.testBit_two_pow, testBit_two_pow_add_lt k r hr i]
  by_cases hik : k = i
  · subst hik
    simp
  · have hik' : ¬ i = k := fun h => hik h.symm
    simp [hik, hik']

theorem xor_two_pow_of_lt (k r : ℕ) (hr : r < 2 ^ k) :
    r ^^^ 2 ^ k = 2 ^ k + r := by
  apply Nat.eq_of_testBit_eq
  intro i
  rw [Nat.testBit_xor, Nat.testBit_two_pow, testBit_two_pow_add_lt k r hr i]
  by_cases hik : i = k
  · subst hik
    simp [Nat.testBit_lt_two_pow hr]
  · have hik' : ¬ k = i := fun h => hik h.symm
    simp [hik, hik']

theorem add_xor_two_pow (k r : ℕ) (hr : r < 2 ^ k) :
    (2 ^ k + r) ^^^ 2 ^ k = r := by
  apply Nat.eq_of_testBit_eq
  intro i
  rw [Nat.testBit_xor, Nat.testBit_two_pow, testBit_two_pow_add_lt k r hr i]
  by_cases hik : i = k
  · subst hik
    simp [Nat.testBit_lt_two_pow hr]
  · have hik' : ¬ k = i := fun h => hik h.symm
    simp [hik, hik']

/-! ## The FFTAnalyzer module (`app.js`) -/

namespace FFTA

/-- The inner loop of the bit-reversal pass of `fft1D`:
`for (; j & bit; bit >>= 1) { j ^= bit; } j ^= bit;`
(one full run, returning the updated `j`; `bit >> 1` is `bit / 2`). -/
def carryStep (bit j : ℕ) : ℕ :=
  if h : j &&& bit = 0 then j ^^^ bit
  else carryStep (bit / 2) (j ^^^ bit)
  termination_by bit
  decreasing_by
    have hbit : bit ≠ 0 := by
      intro h0
      exact h (by simp [h0])
    exact Nat.div_lt_self (Nat.pos_of_ne_zero hbit) (by norm_num)

/-- The incremental reversed counter advances the bit reversal: one run of the
inner loop turns `bitRev (k+1) i` into `bitRev (k+1) (i+1)`. -/
theorem carryStep_bitRev : ∀ k i, i + 1 < 2 ^ (k + 1) →
    carryStep (2 ^ k) (bitRev (k + 1) i) = bitRev (k + 1) (i + 1) := by
  intro k
  induction k with
  | zero =>
    intro i hi
    have hi0 : i = 0 := by omega
    subst hi0
    simp [bitRev, carryStep]
  | succ k ih =>
    intro i hi
    have hr : bitRev (k + 1) (i / 2) < 2 ^ (k + 1) := bitRev_lt _ _
    rcases Nat.even_or_odd i with he | ho
    · have hmod : i % 2 = 0 := Nat.even_iff.mp he
      have hrev : bitRev (k + 2) i = bitRev (k + 1) (i / 2) := by
        show i % 2 * 2 ^ (k + 1) + bitRev (k + 1) (i / 2) = _
        rw [hmod]
        ring
      have hand0 : bitRev (k + 1) (i / 2) &&& 2 ^ (k + 1) = 0 :=
        and_two_pow_of_lt (k + 1) _ hr
      rw [hrev, carryStep, dif_pos hand0,
        xor_two_pow_of_lt (k + 1) _ hr]
      show _ = (i + 1) % 2 * 2 ^ (k + 1) + bitRev (k + 1) ((i + 1) / 2)
      have h1 : (i + 1) % 2 = 1 := by omega
      have h2 : (i + 1) / 2 = i / 2 := by omega
      rw [h1, h2]
      ring
    · have hmod : i % 2 = 1 := Nat.odd_iff.mp ho
      have hrev : bitRev (k + 2) i = 2 ^ (k + 1) + bitRev (k + 1) (i / 2) := by
        show i % 2 * 2 ^ (k + 1) + bitRev (k + 1) (i / 2) = _
        rw [hmod]
        ring
      have hand1 : (2 ^ (k + 1) + bitRev (k + 1) (i / 2)) &&& 2 ^ (k + 1) =
          2 ^ (k + 1) := add_and_two_pow (k + 1) _ hr
      have hpos : 0 < 2 ^ (k + 1) := Nat.pos_pow_of_pos _ (by norm_num)
      have hne : ¬ (2 ^ (k + 1) + bitRev (k + 1) (i / 2)) &&& 2 ^ (k + 1) = 0 := by
        rw [hand1]
        omega
      have hhalf : 2 ^ (k + 1) / 2 = 2 ^ k := by
        rw [pow_succ]
        exact Nat.mul_div_cancel _ (by norm_num)
      have hlt : i / 2 + 1 < 2 ^ (k + 1) := by
        have hp : 2 ^ (k + 2) = 2 * 2 ^ (k + 1) := by ring
        omega
      rw [hrev, carryStep, dif_neg hne, add_xor_two_pow (k + 1) _ hr, hhalf,
        ih (i / 2) hlt]
      show _ = (i + 1) % 2 * 2 ^ (k + 1) + bitRev (k + 1) ((i + 1) / 2)
      have h1 : (i + 1) % 2 = 0 := by omega
      have h2 : (i + 1) / 2 = i / 2 + 1 := by omega
      rw [h1, h2]
      ring

end FFTA

namespace FFTA

/-- Read a complex array cell (`real[p]` + i·`imag[p]`); out-of-range reads are
zero. -/
def val (a : List ℂ) (p : ℕ) : ℂ := a.getD p 0

/-- `[real[i], real[j]] = [real[j], real[i]]` (and likewise `imag`):
destructuring swap of two cells, both sides read before either write. -/
def swapIdx (i j : ℕ) (a : List ℂ) : List ℂ :=
  (a.set i (a.getD j 0)).set j (a.getD i 0)

theorem length_swapIdx (i j : ℕ) (a : List ℂ) :
    (swapIdx i j a).length = a.length := by
  simp [swapIdx]

theorem val_swapIdx (i j : ℕ) (a : List ℂ) (p : ℕ)
    (hi : i < a.length) (hj : j < a.length) :
    val (swapIdx i j a) p =
      if p = j then val a i else if p = i then val a j else val a p := by
  unfold swapIdx val
  rw [getD_set, getD_set]
  simp only [List.length_set]
  by_cases hpj : p = j
  · subst hpj
    simp [hj]
  · by_cases hpi : p = i
    · subst hpi
      simp [hpj, hi]
    · simp [hpj, hpi]

/-- One iteration of the bit-reversal outer loop at index `i = m+1`: advance the
reversed counter, then swap once when `i < j`. -/
def bitrevStep (len : ℕ) (st : ℕ × List ℂ) (m : ℕ) : ℕ × List ℂ :=
  let i := m + 1
  let j := carryStep (len / 2) st.1
  (j, if i < j then swapIdx i j st.2 else st.2)

/-- The in-place bit-reversal permutation pass of `fft1D`:
`for (let i = 1, j = 0; i < len; i++) { ... }`. -/
def bitrevLoop (len : ℕ) (a : List ℂ) : List ℂ :=
  ((List.range (len - 1)).foldl (bitrevStep len) (0, a)).2

theorem foldl_range_succ {α : Type} (f : α → ℕ → α) (init : α) (m : ℕ) :
    (List.range (m + 1)).foldl f init = f ((List.range m).foldl f init) m := by
  rw [List.range_succ, List.foldl_append]
  rfl

/-- Invariant of the bit-reversal loop after the iterations `i = 1..m`:
the reversed counter holds `bitRev k m`, lengths are preserved, and a cell
`p < 2^k` holds `a[bitRev k p]` when the (unique) swap touching it has already
happened, and the original `a[p]` otherwise. -/
theorem bitrevStep_invariant (k' : ℕ) (a : List ℂ)
    (ha : a.length = 2 ^ (k' + 1)) :
    ∀ m, m < 2 ^ (k' + 1) →
      ((List.range m).foldl (bitrevStep (2 ^ (k' + 1))) (0, a)).1 =
          bitRev (k' + 1) m ∧
      ((List.range m).foldl (bitrevStep (2 ^ (k' + 1))) (0, a)).2.length =
          2 ^ (k' + 1) ∧
      ∀ p, p < 2 ^ (k' + 1) →
        val ((List.range m).foldl (bitrevStep (2 ^ (k' + 1))) (0, a)).2 p =
          if (p < bitRev (k' + 1) p ∧ p ≤ m) ∨
             (bitRev (k' + 1) p < p ∧ bitRev (k' + 1) p ≤ m)
          then val a (bitRev (k' + 1) p) else val a p := by
  intro m
  induction m with
  | zero =>
    intro _
    refine ⟨by simpa using (bitRev_zero (k' + 1)).symm, by simpa using ha, ?_⟩
    intro p hp
    have hcond : ¬ ((p < bitRev (k' + 1) p ∧ p ≤ 0) ∨
        (bitRev (k' + 1) p < p ∧ bitRev (k' + 1) p ≤ 0)) := by
      rintro (⟨hlt, hle⟩ | ⟨hlt, hle⟩)
      · have hp0 : p = 0 := by omega
        rw [hp0, bitRev_zero] at hlt
        omega
      · have h0 : bitRev (k' + 1) p = 0 := by omega
        have hinv := bitRev_bitRev (k' + 1) p hp
        rw [h0, bitRev_zero] at hinv
        omega
    simp only [List.range_zero, List.foldl_nil]
    rw [if_neg hcond]
  | succ m ih =>
    intro hm
    have hm' : m < 2 ^ (k' + 1) := by omega
    obtain ⟨ihj, ihlen, ihval⟩ := ih hm'
    set st := (List.range m).foldl (bitrevStep (2 ^ (k' + 1))) (0, a) with hst
    have hhalf : 2 ^ (k' + 1) / 2 = 2 ^ k' := by
      rw [pow_succ]
      exact Nat.mul_div_cancel _ (by norm_num)
    have hj : carryStep (2 ^ (k' + 1) / 2) st.1 = bitRev (k' + 1) (m + 1) := by
      rw [hhalf, ihj]
      exact carryStep_bitRev k' m hm
    have hstep : (List.range (m + 1)).foldl (bitrevStep (2 ^ (k' + 1))) (0, a) =
        (bitRev (k' + 1) (m + 1),
         if m + 1 < bitRev (k' + 1) (m + 1)
         then swapIdx (m + 1) (bitRev (k' + 1) (m + 1)) st.2 else st.2) := by
      rw [foldl_range_succ]
      show bitrevStep _ st m = _
      simp only [bitrevStep]
      rw [hj]
    rw [hstep]
    have hjlt : bitRev (k' + 1) (m + 1) < 2 ^ (k' + 1) := bitRev_lt _ _
    have hrevj : bitRev (k' + 1) (bitRev (k' + 1) (m + 1)) = m + 1 :=
      bitRev_bitRev _ (m + 1) hm
    refine ⟨rfl, ?_, ?_⟩
    · by_cases hij : m + 1 < bitRev (k' + 1) (m + 1)
      · rw [if_pos hij]
        show (swapIdx _ _ st.2).length = _
        rw [length_swapIdx, ihlen]
      · rw [if_neg hij]
        exact ihlen
    intro p hp
    by_cases hij : m + 1 < bitRev (k' + 1) (m + 1)
    · rw [if_pos hij]
      show val (swapIdx (m + 1) (bitRev (k' + 1) (m + 1)) st.2) p = _
      have hi' : m + 1 < st.2.length := by rw [ihlen]; exact hm
      have hj' : bitRev (k' + 1) (m + 1) < st.2.length := by
        rw [ihlen]; exact hjlt
      rw [val_swapIdx _ _ st.2 p hi' hj']
      by_cases hpj : p = bitRev (k' + 1) (m + 1)
      · rw [if_pos hpj, ihval (m + 1) hm]
        have hc : ¬ ((m + 1 < bitRev (k' + 1) (m + 1) ∧ m + 1 ≤ m) ∨
            (bitRev (k' + 1) (m + 1) < m + 1 ∧ bitRev (k' + 1) (m + 1) ≤ m)) := by
          omega
        rw [if_neg hc, hpj, if_pos (by rw [hrevj]; omega), hrevj]
      · rw [if_neg hpj]
        by_cases hpi : p = m + 1
        · rw [if_pos hpi, ihval _ hjlt]
          have hc : ¬ ((bitRev (k' + 1) (m + 1) <
                bitRev (k' + 1) (bitRev (k' + 1) (m + 1)) ∧
              bitRev (k' + 1) (m + 1) ≤ m) ∨
              (bitRev (k' + 1) (bitRev (k' + 1) (m + 1)) <
                bitRev (k' + 1) (m + 1) ∧
              bitRev (k' + 1) (bitRev (k' + 1) (m + 1)) ≤ m)) := by
            rw [hrevj]
            omega
          rw [if_neg hc, hpi, if_pos (Or.inl ⟨hij, le_refl _⟩)]
        · rw [if_neg hpi, ihval p hp]
          have hiff : ((p < bitRev (k' + 1) p ∧ p ≤ m) ∨
              (bitRev (k' + 1) p < p ∧ bitRev (k' + 1) p ≤ m)) ↔
              ((p < bitRev (k' + 1) p ∧ p ≤ m + 1) ∨
              (bitRev (k' + 1) p < p ∧ bitRev (k' + 1) p ≤ m + 1)) := by
            constructor
            · rintro (⟨h1, h2⟩ | ⟨h1, h2⟩)
              · exact Or.inl ⟨h1, by omega⟩
              · exact Or.inr ⟨h1, by omega⟩
            · rintro (⟨h1, h2⟩ | ⟨h1, h2⟩)
              · refine Or.inl ⟨h1, ?_⟩
                rcases Nat.lt_or_ge p (m + 1) with h | h
                · omega
                · exact absurd (by omega : p = m + 1) hpi
              · refine Or.inr ⟨h1, ?_⟩
                rcases Nat.lt_or_ge (bitRev (k' + 1) p) (m + 1) with h | h
                · omega
                · exfalso
                  have hbp : bitRev (k' + 1) p = m + 1 := by omega
                  have hinv := bitRev_bitRev (k' + 1) p hp
                  rw [hbp] at hinv
                  exact hpj (by rw [← hinv])
          rw [if_congr hiff rfl rfl]
    · rw [if_neg hij]
      show val st.2 p = _
      rw [ihval p hp]
      have hiff : ((p < bitRev (k' + 1) p ∧ p ≤ m) ∨
          (bitRev (k' + 1) p < p ∧ bitRev (k' + 1) p ≤ m)) ↔
          ((p < bitRev (k' + 1) p ∧ p ≤ m + 1) ∨
          (bitRev (k' + 1) p < p ∧ bitRev (k' + 1) p ≤ m + 1)) := by
        constructor
        · rintro (⟨h1, h2⟩ | ⟨h1, h2⟩)
          · exact Or.inl ⟨h1, by omega⟩
          · exact Or.inr ⟨h1, by omega⟩
        · rintro (⟨h1, h2⟩ | ⟨h1, h2⟩)
          · refine Or.inl ⟨h1, ?_⟩
            rcases Nat.lt_or_ge p (m + 1) with h | h
            · omega
            · exfalso
              have hpi : p = m + 1 := by omega
              rw [hpi] at h1
              omega
          · refine Or.inr ⟨h1, ?_⟩
            rcases Nat.lt_or_ge (bitRev (k' + 1) p) (m + 1) with h | h
            · omega
            · exfalso
              have hbp : bitRev (k' + 1) p = m + 1 := by omega
              have hinv := bitRev_bitRev (k' + 1) p hp
              rw [hbp] at hinv h1
              omega
      rw [if_congr hiff rfl rfl]

/-- The bit-reversal pass permutes the array by `bitRev`: cell `p` ends up
holding the original cell `bitRev k p`. -/
theorem val_bitrevLoop (k' : ℕ) (a : List ℂ) (ha : a.length = 2 ^ (k' + 1))
    (p : ℕ) (hp : p < 2 ^ (k' + 1)) :
    val (bitrevLoop (2 ^ (k' + 1)) a) p = val a (bitRev (k' + 1) p) := by
  have hm : 2 ^ (k' + 1) - 1 < 2 ^ (k' + 1) := by
    have : 0 < 2 ^ (k' + 1) := Nat.pos_pow_of_pos _ (by norm_num)
    omega
  obtain ⟨-, -, hval⟩ := bitrevStep_invariant k' a ha (2 ^ (k' + 1) - 1) hm
  unfold bitrevLoop
  rw [hval p hp]
  have hblt : bitRev (k' + 1) p < 2 ^ (k' + 1) := bitRev_lt _ _
  rcases Nat.lt_trichotomy p (bitRev (k' + 1) p) with h | h | h
  · rw [if_pos (Or.inl ⟨h, by omega⟩)]
  · have hc : ¬ ((p < bitRev (k' + 1) p ∧ p ≤ 2 ^ (k' + 1) - 1) ∨
        (bitRev (k' + 1) p < p ∧ bitRev (k' + 1) p ≤ 2 ^ (k' + 1) - 1)) := by
      omega
    rw [if_neg hc, ← h]
  · rw [if_pos (Or.inr ⟨h, by omega⟩)]

theorem length_bitrevLoop (len : ℕ) (a : List ℂ) :
    (bitrevLoop len a).length = a.length := by
  unfold bitrevLoop
  have : ∀ (l : List ℕ) (st : ℕ × List ℂ),
      (List.foldl (bitrevStep len) st l).2.length = st.2.length := by
    intro l
    induction l with
    | nil => intro st; rfl
    | cons x xs ih =>
      intro st
      rw [List.foldl_cons, ih]
      show (if x + 1 < carryStep (len / 2) st.1
          then swapIdx (x + 1) (carryStep (len / 2) st.1) st.2
          else st.2).length = _
      split
      · rw [length_swapIdx]
      · rfl
  exact this _ _

end FFTA

namespace FFTA

/-- A length-preserving fold step preserves the array length. -/
theorem length_foldl {α β : Type} (step : List β → α → List β)
    (h : ∀ acc x, (step acc x).length = acc.length) :
    ∀ (l : List α) (a : List β), (l.foldl step a).length = a.length := by
  intro l
  induction l with
  | nil => intro a; rfl
  | cons x xs ih =>
    intro a
    rw [List.foldl_cons, ih, h]

/-- `angle = -2·π / size` of a butterfly pass. -/
noncomputable def angle (size : ℕ) : ℝ := -2 * Real.pi / size

/-- The twiddle factor of butterfly `j` in a pass of block size `size`:
`(cos(angle·j), sin(angle·j))`, evaluated directly per butterfly. -/
noncomputable def twiddle (size j : ℕ) : ℂ :=
  ⟨Real.cos (angle size * j), Real.sin (angle size * j)⟩

/-- One butterfly on the cell pair `k < l`: `tReal`/`tImag` are the component
products of the source; the `l` cells are written first
(`real[l] = real[k] - tReal`, …), then the `k` cells
(`real[k] = real[k] + tReal`, …), each write reading the current array. -/
noncomputable def butterfly (w : ℂ) (k l : ℕ) (a : List ℂ) : List ℂ :=
  let tReal := (val a l).re * w.re - (val a l).im * w.im
  let tImag := (val a l).re * w.im + (val a l).im * w.re
  let a1 := a.set l ⟨(val a k).re - tReal, (val a k).im - tImag⟩
  a1.set k ⟨(val a1 k).re + tReal, (val a1 k).im + tImag⟩

theorem length_butterfly (w : ℂ) (k l : ℕ) (a : List ℂ) :
    (butterfly w k l a).length = a.length := by
  simp [butterfly]

/-- The butterfly writes the decimation-in-time combine `a[k] ± w·a[l]`. -/
theorem val_butterfly (w : ℂ) (k l : ℕ) (a : List ℂ) (p : ℕ)
    (hkl : k ≠ l) (hk : k < a.length) (hl : l < a.length) :
    val (butterfly w k l a) p =
      if p = k then val a k + w * val a l
      else if p = l then val a k - w * val a l
      else val a p := by
  unfold butterfly
  simp only
  unfold val
  rw [getD_set_ne a l k _ 0 hkl, getD_set]
  simp only [List.length_set]
  by_cases hpk : p = k
  · subst hpk
    rw [if_pos ⟨rfl, hk⟩, if_pos rfl]
    apply Complex.ext <;> simp [Complex.mul_re, Complex.mul_im] <;> ring
  · rw [if_neg (fun h => hpk h.1), if_neg hpk, getD_set]
    by_cases hpl : p = l
    · subst hpl
      rw [if_pos ⟨rfl, hl⟩, if_pos rfl]
      apply Complex.ext <;> simp [Complex.mul_re, Complex.mul_im] <;> ring
    · rw [if_neg (fun h => hpl h.1), if_neg hpl]

end FFTA

namespace FFTA

/-- The inner butterfly loop over one block starting at cell `i`:
`for (let j = 0; j < halfSize; j++) { ... }` with `halfSize = size / 2`. -/
noncomputable def blockLoop (size i : ℕ) (a : List ℂ) : List ℂ :=
  (List.range (size / 2)).foldl
    (fun acc j => butterfly (twiddle size j) (i + j) (i + j + size / 2) acc) a

/-- The block loop of one pass: `for (let i = 0; i < len; i += size)` — block
starts are `b·size` for `b < len/size` (`size` always divides `len` here, as
`len` is the padded power of two). -/
noncomputable def stagePass (len size : ℕ) (a : List ℂ) : List ℂ :=
  (List.range (len / size)).foldl (fun acc b => blockLoop size (b * size) acc) a

/-- The Cooley–Tukey stage loop `for (let size = 2; size <= len; size *= 2)`:
stage `s` uses block size `2^(s+1)`, and the number of stages performed is
`⌊log2 len⌋` (the largest `S` with `2^S ≤ len`). -/
noncomputable def fftLoop (len : ℕ) (a : List ℂ) : List ℂ :=
  (List.range (Nat.log2 len)).foldl
    (fun acc s => stagePass len (2 ^ (s + 1)) acc) a

theorem length_blockLoop (size i : ℕ) (a : List ℂ) :
    (blockLoop size i a).length = a.length :=
  length_foldl _ (fun acc j => length_butterfly _ _ _ acc) _ a

theorem length_stagePass (len size : ℕ) (a : List ℂ) :
    (stagePass len size a).length = a.length :=
  length_foldl _ (fun acc b => length_blockLoop _ _ acc) _ a

theorem length_fftLoop (len : ℕ) (a : List ℂ) :
    (fftLoop len a).length = a.length :=
  length_foldl _ (fun acc s => length_stagePass _ _ acc) _ a

/-- Partial run of the butterfly loop of one block: after the butterflies
`j = 0..m-1`, the first `m` cells of each half of the block hold the combined
values (each computed from the original array, since distinct butterflies of a
block touch disjoint cell pairs) and the rest is untouched. -/
theorem val_blockLoop_partial (half i : ℕ) (hhalf : 1 ≤ half) (a : List ℂ)
    (hlen : i + 2 * half ≤ a.length) :
    ∀ m, m ≤ half → ∀ p,
      val ((List.range m).foldl
        (fun acc j => butterfly (twiddle (2 * half) j) (i + j) (i + j + half) acc)
        a) p =
      if i ≤ p ∧ p < i + m then
        val a p + twiddle (2 * half) (p - i) * val a (p + half)
      else if i + half ≤ p ∧ p < i + half + m then
        val a (p - half) - twiddle (2 * half) (p - half - i) * val a p
      else val a p := by
  intro m
  induction m with
  | zero =>
    intro _ p
    simp only [List.range_zero, List.foldl_nil]
    rw [if_neg (by omega), if_neg (by omega)]
  | succ m ih =>
    intro hm p
    have hm' : m ≤ half := by omega
    rw [foldl_range_succ]
    set B := (List.range m).foldl
      (fun acc j => butterfly (twiddle (2 * half) j) (i + j) (i + j + half) acc) a
      with hB
    have hBlen : B.length = a.length :=
      length_foldl _ (fun acc j => length_butterfly _ _ _ acc) _ a
    have hk : i + m < B.length := by omega
    have hl : i + m + half < B.length := by omega
    have hkl : i + m ≠ i + m + half := by omega
    rw [val_butterfly _ _ _ _ p hkl hk hl]
    have hreadk : val B (i + m) = val a (i + m) := by
      rw [ih hm' (i + m), if_neg (by omega), if_neg (by omega)]
    have hreadl : val B (i + m + half) = val a (i + m + half) := by
      rw [ih hm' (i + m + half), if_neg (by omega), if_neg (by omega)]
    by_cases hpk : p = i + m
    · rw [if_pos hpk, hreadk, hreadl, if_pos (by omega)]
      rw [hpk]
      have h1 : i + m - i = m := by omega
      rw [h1]
    · rw [if_neg hpk]
      by_cases hpl : p = i + m + half
      · rw [if_pos hpl, hreadk, hreadl, if_neg (by omega), if_pos (by omega)]
        rw [hpl]
        have h1 : i + m + half - half = i + m := by omega
        rw [h1]
        have h2 : i + m - i = m := by omega
        rw [h2]
      · rw [if_neg hpl, ih hm' p]
        by_cases hc1 : i ≤ p ∧ p < i + m
        · rw [if_pos hc1, if_pos (by omega)]
        · rw [if_neg hc1]
          by_cases hc2 : i + half ≤ p ∧ p < i + half + m
          · rw [if_pos hc2, if_neg (by omega), if_pos (by omega)]
          · rw [if_neg hc2, if_neg (by omega), if_neg (by omega)]

/-- Closed form of one block: within the block starting at `i`, the lower half
holds `a[p] + w·a[p+half]` and the upper half `a[p-half] - w·a[p]`. -/
theorem val_blockLoop_closed (half i : ℕ) (hhalf : 1 ≤ half) (a : List ℂ)
    (hlen : i + 2 * half ≤ a.length) (p : ℕ) :
    val (blockLoop (2 * half) i a) p =
      if i ≤ p ∧ p < i + half then
        val a p + twiddle (2 * half) (p - i) * val a (p + half)
      else if i + half ≤ p ∧ p < i + 2 * half then
        val a (p - half) - twiddle (2 * half) (p - half - i) * val a p
      else val a p := by
  have hdiv : 2 * half / 2 = half := Nat.mul_div_cancel_left half (by norm_num)
  unfold blockLoop
  rw [hdiv]
  have := val_blockLoop_partial half i hhalf a hlen half (le_refl half) p
  rw [this]
  have h2 : i + half + half = i + 2 * half := by ring
  rw [h2]

end FFTA

namespace FFTA

/-- Partial run of the block loop of one pass: the first `m` blocks are
transformed (each from the original array — blocks touch disjoint cell
ranges), the rest untouched. -/
theorem val_stagePass_partial (half len : ℕ) (hhalf : 1 ≤ half) (a : List ℂ)
    (ha : a.length = len) :
    ∀ m, m ≤ len / (2 * half) → ∀ p,
      val ((List.range m).foldl
        (fun acc b => blockLoop (2 * half) (b * (2 * half)) acc) a) p =
      if p < m * (2 * half) then
        (if p % (2 * half) < half then
          val a p + twiddle (2 * half) (p % (2 * half)) * val a (p + half)
        else
          val a (p - half) - twiddle (2 * half) (p % (2 * half) - half) * val a p)
      else val a p := by
  intro m
  induction m with
  | zero =>
    intro _ p
    simp only [List.range_zero, List.foldl_nil, Nat.zero_mul]
    rw [if_neg (by omega)]
  | succ m ih =>
    intro hm p
    have hm' : m ≤ len / (2 * half) := by omega
    rw [foldl_range_succ]
    set B := (List.range m).foldl
      (fun acc b => blockLoop (2 * half) (b * (2 * half)) acc) a with hB
    have hBlen : B.length = a.length :=
      length_foldl _ (fun acc b => length_blockLoop _ _ acc) _ a
    have hrel : (m + 1) * (2 * half) = m * (2 * half) + 2 * half := by ring
    have hfit : (m + 1) * (2 * half) ≤ len :=
      (Nat.le_div_iff_mul_le (by omega)).mp hm
    have hlenB : m * (2 * half) + 2 * half ≤ B.length := by
      rw [hBlen, ha]
      omega
    rw [val_blockLoop_closed half (m * (2 * half)) hhalf B hlenB p]
    rcases Nat.lt_or_ge p (m * (2 * half)) with hz1 | hz1
    · -- cell in an earlier, already transformed block: untouched now
      rw [if_neg (by omega), if_neg (by omega), ih hm' p, if_pos hz1,
        if_pos (show p < (m + 1) * (2 * half) from by omega)]
    rcases Nat.lt_or_ge p ((m + 1) * (2 * half)) with hz2 | hz2
    · -- cell inside the new block
      have hmod : p % (2 * half) = p - m * (2 * half) := by
        have hq : p = (p - m * (2 * half)) + m * (2 * half) := by omega
        calc p % (2 * half) = ((p - m * (2 * half)) + m * (2 * half)) % (2 * half) := by
              rw [← hq]
          _ = (p - m * (2 * half)) % (2 * half) := Nat.add_mul_mod_self_right _ _ _
          _ = p - m * (2 * half) := Nat.mod_eq_of_lt (by omega)
      rcases Nat.lt_or_ge p (m * (2 * half) + half) with hz3 | hz3
      · -- lower half of the block
        rw [if_pos (by omega)]
        rw [ih hm' p, if_neg (by omega),
          ih hm' (p + half), if_neg (by omega)]
        rw [if_pos (by omega), hmod, if_pos (by omega)]
      · -- upper half of the block
        rw [if_neg (by omega), if_pos (by omega)]
        rw [ih hm' (p - half), if_neg (by omega), ih hm' p, if_neg (by omega)]
        rw [if_pos (by omega), hmod, if_neg (by omega)]
        have heq1 : p - half - m * (2 * half) = p - m * (2 * half) - half := by
          omega
        rw [heq1]
    · -- cell beyond the new block: untouched
      rw [if_neg (by omega), if_neg (by omega), ih hm' p, if_neg (by omega),
        if_neg (by omega)]

/-- Closed form of one full pass over a length the block size divides: cell `p`
is combined with its butterfly partner `half` away, with twiddle index
`p mod size` (its offset in its block). -/
theorem val_stagePass_closed (half len : ℕ) (hhalf : 1 ≤ half)
    (hdvd : 2 * half ∣ len) (a : List ℂ) (ha : a.length = len)
    (p : ℕ) (hp : p < len) :
    val (stagePass len (2 * half) a) p =
      if p % (2 * half) < half then
        val a p + twiddle (2 * half) (p % (2 * half)) * val a (p + half)
      else
        val a (p - half) - twiddle (2 * half) (p % (2 * half) - half) * val a p := by
  unfold stagePass
  have hlen : len / (2 * half) * (2 * half) = len := Nat.div_mul_cancel hdvd
  have := val_stagePass_partial half len hhalf a ha (len / (2 * half))
    (le_refl _) p
  rw [this, if_pos (by omega)]

end FFTA

namespace FFTA

/-- `E x = e^{-2πx·i}`, the unit-circle exponential of the DFT. -/
noncomputable def E (x : ℝ) : ℂ := Complex.exp ((-2 * Real.pi * x : ℝ) * Complex.I)

/-- The forward, unnormalized discrete Fourier transform of the length-`m`
sequence `x`: `dft x m j = Σ_{t<m} x t · e^{-2πi·j·t/m}`. -/
noncomputable def dft (x : ℕ → ℂ) (m j : ℕ) : ℂ :=
  ∑ t ∈ Finset.range m, x t * E ((j : ℝ) * t / m)

theorem E_zero : E 0 = 1 := by
  unfold E
  norm_num

theorem E_add (x y : ℝ) : E (x + y) = E x * E y := by
  unfold E
  rw [← Complex.exp_add]
  congr 1
  push_cast
  ring

theorem E_nat_mul (t : ℕ) (x : ℝ) : E (t * x) = E x ^ t := by
  unfold E
  rw [← Complex.exp_nat_mul]
  congr 1
  push_cast
  ring

theorem E_half : E (1 / 2) = -1 := by
  unfold E
  have harg : (-2 * Real.pi * (1 / 2 : ℝ)) = -Real.pi := by ring
  rw [harg]
  apply Complex.ext
  · rw [Complex.exp_ofReal_mul_I_re]
    simp [Real.cos_pi]
  · rw [Complex.exp_ofReal_mul_I_im]
    simp [Real.sin_pi]

theorem E_nat_div_two (t : ℕ) : E (t / 2) = (-1) ^ t := by
  have h1 : (t : ℝ) / 2 = t * (1 / 2) := by ring
  rw [h1, E_nat_mul, E_half]

/-- The per-butterfly trigonometric twiddle of the source equals the
unit-circle exponential `e^{-2πi·j/size}`. -/
theorem twiddle_eq_E (m j : ℕ) : twiddle m j = E ((j : ℝ) / m) := by
  unfold twiddle E angle
  have harg : (-2 * Real.pi * ((j : ℝ) / m)) = -2 * Real.pi / m * j := by ring
  rw [harg]
  apply Complex.ext
  · rw [Complex.exp_ofReal_mul_I_re]
  · rw [Complex.exp_ofReal_mul_I_im]

theorem sum_range_two_mul (n : ℕ) (f : ℕ → ℂ) :
    ∑ t ∈ Finset.range (2 * n), f t =
      ∑ u ∈ Finset.range n, f (2 * u) + ∑ u ∈ Finset.range n, f (2 * u + 1) := by
  induction n with
  | zero => simp
  | succ n ih =>
    have h2 : 2 * (n + 1) = 2 * n + 1 + 1 := by ring
    rw [h2, Finset.sum_range_succ, Finset.sum_range_succ, ih,
      Finset.sum_range_succ, Finset.sum_range_succ]
    ring

theorem div_pow_succ (c q S : ℕ) :
    (c * 2 ^ (S + 1) + q) / 2 ^ S = 2 * c + q / 2 ^ S := by
  have h1 : c * 2 ^ (S + 1) + q = 2 ^ S * (2 * c) + q := by ring
  rw [h1, Nat.mul_add_div (Nat.pos_pow_of_pos S (by norm_num))]

theorem mod_pow_succ (c q S : ℕ) :
    (c * 2 ^ (S + 1) + q) % 2 ^ S = q % 2 ^ S := by
  have h1 : c * 2 ^ (S + 1) + q = q + (2 * c) * 2 ^ S := by ring
  rw [h1, Nat.add_mul_mod_self_right]

end FFTA

namespace FFTA

/-- The stage invariant: after the pass of block size `2^S`, cell `p` holds the
length-`2^S` DFT, at frequency `p mod 2^S`, of the stride-`2^(k-S)` decimated
subsequence of the input selected by the bit-reversed block index `p / 2^S`. -/
noncomputable def Gform (x : ℕ → ℂ) (k S p : ℕ) : ℂ :=
  ∑ t ∈ Finset.range (2 ^ S),
    x (t * 2 ^ (k - S) + bitRev (k - S) (p / 2 ^ S)) *
      E (((p % 2 ^ S : ℕ) : ℝ) * (t : ℝ) / ((2 ^ S : ℕ) : ℝ))

theorem bitRev_zero_left (i : ℕ) : bitRev 0 i = 0 := rfl

theorem Gform_zero (x : ℕ → ℂ) (k p : ℕ) : Gform x k 0 p = x (bitRev k p) := by
  unfold Gform
  simp [E_zero]

theorem Gform_top (x : ℕ → ℂ) (k p : ℕ) (hp : p < 2 ^ k) :
    Gform x k k p = dft x (2 ^ k) p := by
  unfold Gform dft
  rw [Nat.mod_eq_of_lt hp]
  apply Finset.sum_congr rfl
  intro t _
  simp [bitRev_zero_left]

theorem Gform_succ_lower (x : ℕ → ℂ) (k S p : ℕ) (hS : S + 1 ≤ k)
    (hr : p % 2 ^ (S + 1) < 2 ^ S) :
    Gform x k (S + 1) p =
      Gform x k S p +
        twiddle (2 ^ (S + 1)) (p % 2 ^ (S + 1)) * Gform x k S (p + 2 ^ S) := by
  obtain ⟨b, r, hpbr, hrlt⟩ :
      ∃ b r, p = b * 2 ^ (S + 1) + r ∧ r < 2 ^ (S + 1) := by
    refine ⟨p / 2 ^ (S + 1), p % 2 ^ (S + 1), ?_,
      Nat.mod_lt _ (Nat.pos_pow_of_pos _ (by norm_num))⟩
    calc p = 2 ^ (S + 1) * (p / 2 ^ (S + 1)) + p % 2 ^ (S + 1) :=
          (Nat.div_add_mod p (2 ^ (S + 1))).symm
      _ = p / 2 ^ (S + 1) * 2 ^ (S + 1) + p % 2 ^ (S + 1) := by ring
  subst hpbr
  have hmod21 : (b * 2 ^ (S + 1) + r) % 2 ^ (S + 1) = r := by
    have h1 : b * 2 ^ (S + 1) + r = r + b * 2 ^ (S + 1) := by ring
    rw [h1, Nat.add_mul_mod_self_right, Nat.mod_eq_of_lt hrlt]
  have hrS : r < 2 ^ S := by rw [hmod21] at hr; exact hr
  have hdiv21 : (b * 2 ^ (S + 1) + r) / 2 ^ (S + 1) = b := by
    have h1 : b * 2 ^ (S + 1) + r = r + b * 2 ^ (S + 1) := by ring
    rw [h1, Nat.add_mul_div_right _ _ (Nat.pos_pow_of_pos _ (by norm_num)),
      Nat.div_eq_of_lt hrlt]
    omega
  have hdivS : (b * 2 ^ (S + 1) + r) / 2 ^ S = 2 * b := by
    rw [div_pow_succ, Nat.div_eq_of_lt hrS]
    omega
  have hmodS : (b * 2 ^ (S + 1) + r) % 2 ^ S = r := by
    rw [mod_pow_succ, Nat.mod_eq_of_lt hrS]
  have hdivS' : (b * 2 ^ (S + 1) + r + 2 ^ S) / 2 ^ S = 2 * b + 1 := by
    have h1 : b * 2 ^ (S + 1) + r + 2 ^ S = b * 2 ^ (S + 1) + (r + 2 ^ S) := by
      ring
    rw [h1, div_pow_succ, Nat.add_div_right _ (Nat.pos_pow_of_pos _ (by norm_num)),
      Nat.div_eq_of_lt hrS]
  have hmodS' : (b * 2 ^ (S + 1) + r + 2 ^ S) % 2 ^ S = r := by
    have h1 : b * 2 ^ (S + 1) + r + 2 ^ S = b * 2 ^ (S + 1) + (r + 2 ^ S) := by
      ring
    rw [h1, mod_pow_succ, Nat.add_mod_right, Nat.mod_eq_of_lt hrS]
  obtain ⟨K, hKdef⟩ : ∃ K, k - S - 1 = K := ⟨k - S - 1, rfl⟩
  have hsub : k - (S + 1) = K := by omega
  have hks : k - S = K + 1 := by omega
  unfold Gform
  rw [hmod21, hdiv21, hdivS, hmodS, hdivS', hmodS', hsub, hks,
    bitRev_two_mul, bitRev_two_mul_add_one]
  have h2n : (2 : ℕ) ^ (S + 1) = 2 * 2 ^ S := by ring
  rw [h2n, sum_range_two_mul]
  congr 1
  · apply Finset.sum_congr rfl
    intro u _
    have hidx : (2 * u) * 2 ^ K = u * 2 ^ (K + 1) := by
      rw [pow_succ]
      ring
    rw [hidx]
    congr 2
    push_cast
    have h2 : (2 : ℝ) ^ S ≠ 0 := by positivity
    field_simp
    ring
  · rw [Finset.mul_sum]
    apply Finset.sum_congr rfl
    intro u _
    have hidx : (2 * u + 1) * 2 ^ K + bitRev K b =
        u * 2 ^ (K + 1) + (2 ^ K + bitRev K b) := by
      rw [pow_succ]
      ring
    have hEodd : ((r : ℝ) * ((2 * u + 1 : ℕ) : ℝ) / ((2 * 2 ^ S : ℕ) : ℝ)) =
        (r : ℝ) * (u : ℝ) / ((2 ^ S : ℕ) : ℝ) +
          (r : ℝ) / ((2 * 2 ^ S : ℕ) : ℝ) := by
      push_cast
      have h2 : (2 : ℝ) ^ S ≠ 0 := by positivity
      field_simp
      ring
    rw [hidx, hEodd, E_add, twiddle_eq_E]
    ring

end FFTA

namespace FFTA

theorem E_one : E 1 = 1 := by
  unfold E
  have harg : ((-2 * Real.pi * (1 : ℝ)) : ℝ) * Complex.I =
      -(2 * Real.pi * Complex.I) := by
    push_cast
    ring
  rw [harg, Complex.exp_neg, Complex.exp_two_pi_mul_I]
  norm_num

theorem E_nat_add (n : ℕ) (x : ℝ) : E (n + x) = E x := by
  rw [E_add]
  have h1 : E (n : ℝ) = 1 := by
    have h2 : (n : ℝ) = n * (1 : ℝ) := by ring
    rw [h2, E_nat_mul, E_one, one_pow]
  rw [h1, one_mul]

theorem Gform_succ_upper (x : ℕ → ℂ) (k S p : ℕ) (hS : S + 1 ≤ k)
    (hr : 2 ^ S ≤ p % 2 ^ (S + 1)) :
    Gform x k (S + 1) p =
      Gform x k S (p - 2 ^ S) -
        twiddle (2 ^ (S + 1)) (p % 2 ^ (S + 1) - 2 ^ S) * Gform x k S p := by
  have hlt21 : p % 2 ^ (S + 1) < 2 ^ (S + 1) :=
    Nat.mod_lt _ (Nat.pos_pow_of_pos _ (by norm_num))
  have hpow : (2 : ℕ) ^ (S + 1) = 2 * 2 ^ S := by ring
  obtain ⟨b, c, hpbr, hclt⟩ :
      ∃ b c, p = b * 2 ^ (S + 1) + (2 ^ S + c) ∧ c < 2 ^ S := by
    refine ⟨p / 2 ^ (S + 1), p % 2 ^ (S + 1) - 2 ^ S, ?_, by omega⟩
    have hdm : 2 ^ (S + 1) * (p / 2 ^ (S + 1)) + p % 2 ^ (S + 1) = p :=
      Nat.div_add_mod p (2 ^ (S + 1))
    have hcomm : 2 ^ (S + 1) * (p / 2 ^ (S + 1)) =
        p / 2 ^ (S + 1) * 2 ^ (S + 1) := by ring
    omega
  subst hpbr
  have hmod21 : (b * 2 ^ (S + 1) + (2 ^ S + c)) % 2 ^ (S + 1) = 2 ^ S + c := by
    have h1 : b * 2 ^ (S + 1) + (2 ^ S + c) =
        (2 ^ S + c) + b * 2 ^ (S + 1) := by ring
    rw [h1, Nat.add_mul_mod_self_right, Nat.mod_eq_of_lt (by omega)]
  have hdiv21 : (b * 2 ^ (S + 1) + (2 ^ S + c)) / 2 ^ (S + 1) = b := by
    have h1 : b * 2 ^ (S + 1) + (2 ^ S + c) =
        (2 ^ S + c) + b * 2 ^ (S + 1) := by ring
    rw [h1, Nat.add_mul_div_right _ _ (Nat.pos_pow_of_pos _ (by norm_num)),
      Nat.div_eq_of_lt (by omega)]
    omega
  have hpsub : b * 2 ^ (S + 1) + (2 ^ S + c) - 2 ^ S =
      b * 2 ^ (S + 1) + c := by omega
  have hdivS1 : (b * 2 ^ (S + 1) + c) / 2 ^ S = 2 * b := by
    rw [div_pow_succ, Nat.div_eq_of_lt hclt]
    omega
  have hmodS1 : (b * 2 ^ (S + 1) + c) % 2 ^ S = c := by
    rw [mod_pow_succ, Nat.mod_eq_of_lt hclt]
  have hdivS2 : (b * 2 ^ (S + 1) + (2 ^ S + c)) / 2 ^ S = 2 * b + 1 := by
    have h1 : (2 : ℕ) ^ S + c = c + 2 ^ S := by ring
    rw [h1, div_pow_succ, Nat.add_div_right _ (Nat.pos_pow_of_pos _ (by norm_num)),
      Nat.div_eq_of_lt hclt]
  have hmodS2 : (b * 2 ^ (S + 1) + (2 ^ S + c)) % 2 ^ S = c := by
    have h1 : (2 : ℕ) ^ S + c = c + 2 ^ S := by ring
    rw [h1, mod_pow_succ, Nat.add_mod_right, Nat.mod_eq_of_lt hclt]
  have htw : 2 ^ S + c - 2 ^ S = c := by omega
  obtain ⟨K, hKdef⟩ : ∃ K, k - S - 1 = K := ⟨k - S - 1, rfl⟩
  have hsub : k - (S + 1) = K := by omega
  have hks : k - S = K + 1 := by omega
  unfold Gform
  rw [hmod21, hdiv21, htw, hpsub, hdivS1, hmodS1, hdivS2, hmodS2, hsub, hks,
    bitRev_two_mul, bitRev_two_mul_add_one, hpow, sum_range_two_mul,
    twiddle_eq_E, sub_eq_add_neg]
  congr 1
  · apply Finset.sum_congr rfl
    intro u _
    have hidx : (2 * u) * 2 ^ K = u * 2 ^ (K + 1) := by
      rw [pow_succ]
      ring
    rw [hidx]
    have harg : (((2 ^ S + c : ℕ) : ℝ) * ((2 * u : ℕ) : ℝ) /
        ((2 * 2 ^ S : ℕ) : ℝ)) =
        (u : ℝ) + ((c : ℕ) : ℝ) * (u : ℝ) / ((2 ^ S : ℕ) : ℝ) := by
      push_cast
      have h2 : (2 : ℝ) ^ S ≠ 0 := by positivity
      field_simp
      ring
    rw [harg, E_nat_add]
  · rw [Finset.mul_sum, ← Finset.sum_neg_distrib]
    apply Finset.sum_congr rfl
    intro u _
    have hidx : (2 * u + 1) * 2 ^ K + bitRev K b =
        u * 2 ^ (K + 1) + (2 ^ K + bitRev K b) := by
      rw [pow_succ]
      ring
    have harg : (((2 ^ S + c : ℕ) : ℝ) * ((2 * u + 1 : ℕ) : ℝ) /
        ((2 * 2 ^ S : ℕ) : ℝ)) =
        (u : ℝ) + ((((c : ℕ) : ℝ) * (u : ℝ) / ((2 ^ S : ℕ) : ℝ)) +
          ((1 : ℝ) / 2 + ((c : ℕ) : ℝ) / ((2 * 2 ^ S : ℕ) : ℝ))) := by
      push_cast
      have h2 : (2 : ℝ) ^ S ≠ 0 := by positivity
      field_simp
      ring
    rw [hidx, harg, E_nat_add, E_add, E_add, E_half]
    ring

end FFTA

namespace FFTA

theorem log2_two_pow (k : ℕ) : Nat.log2 (2 ^ k) = k := by
  rw [Nat.log2_eq_log_two]
  exact Nat.log_pow (by norm_num) k

/-- The butterfly partner of a lower-half cell stays inside the array. -/
theorem partner_lt (k S p : ℕ) (hS : S + 1 ≤ k) (hp : p < 2 ^ k)
    (hr : p % 2 ^ (S + 1) < 2 ^ S) : p + 2 ^ S < 2 ^ k := by
  obtain ⟨M, hM⟩ : 2 ^ (S + 1) ∣ 2 ^ k := pow_dvd_pow 2 hS
  have hdm := Nat.div_add_mod p (2 ^ (S + 1))
  have hblt : p / 2 ^ (S + 1) < M := by
    by_contra hcon
    push_neg at hcon
    have hmul := Nat.mul_le_mul_right (2 ^ (S + 1)) hcon
    have hc1 : M * 2 ^ (S + 1) = 2 ^ (S + 1) * M := by ring
    have hc2 : p / 2 ^ (S + 1) * 2 ^ (S + 1) =
        2 ^ (S + 1) * (p / 2 ^ (S + 1)) := by ring
    omega
  have hble : p / 2 ^ (S + 1) + 1 ≤ M := hblt
  have hmul := Nat.mul_le_mul_right (2 ^ (S + 1)) hble
  have hc1 : M * 2 ^ (S + 1) = 2 ^ (S + 1) * M := by ring
  have hexp : (p / 2 ^ (S + 1) + 1) * 2 ^ (S + 1) =
      2 ^ (S + 1) * (p / 2 ^ (S + 1)) + 2 ^ (S + 1) := by ring
  have hpow : 2 ^ (S + 1) = 2 * 2 ^ S := by ring
  omega

/-- After the stages of block sizes `2, 4, …, 2^S`, cell `p` of the
bit-reversed array holds the invariant form `Gform`. -/
theorem val_stages (k : ℕ) (x : ℕ → ℂ) (a0 : List ℂ)
    (ha0len : a0.length = 2 ^ k)
    (ha0 : ∀ p, p < 2 ^ k → val a0 p = x (bitRev k p)) :
    ∀ S, S ≤ k → ∀ p, p < 2 ^ k →
      val ((List.range S).foldl
        (fun acc s => stagePass (2 ^ k) (2 ^ (s + 1)) acc) a0) p =
        Gform x k S p := by
  intro S
  induction S with
  | zero =>
    intro _ p hp
    simp only [List.range_zero, List.foldl_nil]
    rw [ha0 p hp, Gform_zero]
  | succ S ih =>
    intro hS p hp
    have hS' : S ≤ k := by omega
    rw [foldl_range_succ]
    set A := (List.range S).foldl
      (fun acc s => stagePass (2 ^ k) (2 ^ (s + 1)) acc) a0 with hA
    have hAlen : A.length = 2 ^ k := by
      rw [hA, length_foldl _ (fun acc s => length_stagePass _ _ acc), ha0len]
    have hpow : (2 : ℕ) ^ (S + 1) = 2 * 2 ^ S := by ring
    have hdvd : 2 * 2 ^ S ∣ 2 ^ k := by
      rw [← hpow]
      exact pow_dvd_pow 2 hS
    have hhalf : 1 ≤ 2 ^ S := Nat.pos_pow_of_pos _ (by norm_num)
    rw [hpow, val_stagePass_closed (2 ^ S) (2 ^ k) hhalf hdvd A hAlen p hp]
    by_cases hr : p % (2 * 2 ^ S) < 2 ^ S
    · rw [if_pos hr]
      have hr' : p % 2 ^ (S + 1) < 2 ^ S := by rw [hpow]; exact hr
      have hpartner : p + 2 ^ S < 2 ^ k := partner_lt k S p hS hp hr'
      rw [ih hS' p hp, ih hS' (p + 2 ^ S) hpartner,
        Gform_succ_lower x k S p hS hr', hpow]
    · rw [if_neg hr]
      have hr' : 2 ^ S ≤ p % 2 ^ (S + 1) := by rw [hpow]; omega
      have hsub : p - 2 ^ S < 2 ^ k := by omega
      rw [ih hS' p hp, ih hS' (p - 2 ^ S) hsub,
        Gform_succ_upper x k S p hS hr', hpow]

/-- Running the bit-reversal pass and then the full stage loop on an array of
length `2^k` computes the unnormalized forward DFT of its contents. -/
theorem val_fftLoop (k' : ℕ) (a : List ℂ) (ha : a.length = 2 ^ (k' + 1))
    (p : ℕ) (hp : p < 2 ^ (k' + 1)) :
    val (fftLoop (2 ^ (k' + 1)) (bitrevLoop (2 ^ (k' + 1)) a)) p =
      dft (val a) (2 ^ (k' + 1)) p := by
  have hlen0 : (bitrevLoop (2 ^ (k' + 1)) a).length = 2 ^ (k' + 1) := by
    rw [length_bitrevLoop, ha]
  have hrev : ∀ q, q < 2 ^ (k' + 1) →
      val (bitrevLoop (2 ^ (k' + 1)) a) q = (val a) (bitRev (k' + 1) q) :=
    fun q hq => val_bitrevLoop k' a ha q hq
  unfold fftLoop
  rw [log2_two_pow]
  rw [val_stages (k' + 1) (val a) _ hlen0 hrev (k' + 1) (le_refl _) p hp,
    Gform_top _ _ _ hp]

end FFTA

namespace FFTA

/-- `while (paddedN < N) paddedN *= 2`, starting from `p` (the source starts at
`paddedN = 1`, so `p` is always a positive power of two; the `0 < p` guard only
serves Lean's termination measure and never fails on reachable inputs). -/
def padLoop (N p : ℕ) : ℕ :=
  if h : 0 < p ∧ p < N then padLoop N (2 * p) else p
  termination_by N - p
  decreasing_by
    obtain ⟨h1, h2⟩ := h
    omega

/-- `paddedN` computed by `fft1D`: the least power of two `≥ N`. -/
def padLen (N : ℕ) : ℕ := padLoop N 1

theorem padLoop_pow (N : ℕ) :
    ∀ s, padLoop N (2 ^ s) = 2 ^ max s (Nat.clog 2 N) := by
  have H : ∀ fuel s, N - 2 ^ s ≤ fuel →
      padLoop N (2 ^ s) = 2 ^ max s (Nat.clog 2 N) := by
    intro fuel
    induction fuel with
    | zero =>
      intro s hf
      have hpos : 0 < 2 ^ s := Nat.pos_pow_of_pos _ (by norm_num)
      have hle : N ≤ 2 ^ s := by omega
      rw [padLoop, dif_neg (by omega)]
      have hclog : Nat.clog 2 N ≤ s := (Nat.le_pow_iff_clog_le (by norm_num)).mp hle
      rw [Nat.max_eq_left hclog]
    | succ fuel ih =>
      intro s hf
      have hpos : 0 < 2 ^ s := Nat.pos_pow_of_pos _ (by norm_num)
      by_cases hlt : 2 ^ s < N
      · rw [padLoop, dif_pos ⟨hpos, hlt⟩]
        have h2 : 2 * 2 ^ s = 2 ^ (s + 1) := by ring
        have hfit : N - 2 ^ (s + 1) ≤ fuel := by
          have hp1 : 2 ^ (s + 1) = 2 * 2 ^ s := by ring
          omega
        rw [h2, ih (s + 1) hfit]
        congr 1
        have hs : s < Nat.clog 2 N := by
          by_contra hcon
          push_neg at hcon
          have := (Nat.le_pow_iff_clog_le (by norm_num : (1:ℕ) < 2)).mpr hcon
          omega
        omega
      · have hle : N ≤ 2 ^ s := by omega
        rw [padLoop, dif_neg (by omega)]
        have hclog : Nat.clog 2 N ≤ s := (Nat.le_pow_iff_clog_le (by norm_num)).mp hle
        rw [Nat.max_eq_left hclog]
  intro s
  exact H N s (Nat.sub_le N (2 ^ s))

/-- The padded length is `2^⌈log2 N⌉`. -/
theorem padLen_eq (N : ℕ) : padLen N = 2 ^ Nat.clog 2 N := by
  have h0 : padLen N = padLoop N (2 ^ 0) := rfl
  rw [h0, padLoop_pow N 0]
  congr 1
  omega

theorem le_padLen (N : ℕ) (hN : 1 ≤ N) : N ≤ padLen N := by
  rw [padLen_eq]
  exact Nat.le_pow_clog (by norm_num) N

/-- The padding is a no-op exactly on powers of two. -/
theorem padLen_eq_self_iff (N : ℕ) : padLen N = N ↔ ∃ j, N = 2 ^ j := by
  constructor
  · intro h
    exact ⟨Nat.clog 2 N, by rw [← padLen_eq N, h]⟩
  · rintro ⟨j, rfl⟩
    rw [padLen_eq, Nat.clog_pow 2 j (by norm_num)]

/-- Zero-padded complexification of the two input arrays: cell `t` is
`(real[t], imag[t])` for `t < N` and `0` beyond (a fresh zero array overwritten
by `paddedReal.set(real)`); for `P = N` it is just the pairing of the inputs. -/
noncomputable def toPadded (re im : List ℝ) (P : ℕ) : List ℂ :=
  (List.range P).map fun t => ⟨re.getD t 0, im.getD t 0⟩

theorem length_toPadded (re im : List ℝ) (P : ℕ) :
    (toPadded re im P).length = P := by
  simp [toPadded]

theorem val_toPadded (re im : List ℝ) (P t : ℕ) (ht : t < P) :
    val (toPadded re im P) t = ⟨re.getD t 0, im.getD t 0⟩ := by
  unfold toPadded val
  rw [getD_eq_of_lt _ _ _ (by simpa using ht)]
  simp

/-- `fft1D(real, imag)` of the `FFTAnalyzer` module: trivial return for
`N ≤ 1`; otherwise pad both sequences to the next power of two, run the
in-place bit-reversal permutation and the iterative Cooley–Tukey stage loop,
and return the first `N` cells (`N === len ? real : real.slice(0, N)`). -/
noncomputable def fft1D (re im : List ℝ) : List ℝ × List ℝ :=
  if re.length ≤ 1 then (re, im)
  else
    let paddedN := padLen re.length
    let res := fftLoop paddedN (bitrevLoop paddedN (toPadded re im paddedN))
    let out := if re.length = paddedN then res else res.take re.length
    (out.map Complex.re, out.map Complex.im)

theorem getD_map_re (l : List ℂ) (p : ℕ) :
    (l.map Complex.re).getD p 0 = (l.getD p 0).re := by
  rcases Nat.lt_or_ge p l.length with h | h
  · rw [getD_eq_of_lt _ _ _ (by simpa using h), getD_eq_of_lt _ _ _ h]
    simp
  · rw [getD_eq_default_of_le _ _ _ (by simpa using h),
      getD_eq_default_of_le _ _ _ h]
    simp

theorem getD_map_im (l : List ℂ) (p : ℕ) :
    (l.map Complex.im).getD p 0 = (l.getD p 0).im := by
  rcases Nat.lt_or_ge p l.length with h | h
  · rw [getD_eq_of_lt _ _ _ (by simpa using h), getD_eq_of_lt _ _ _ h]
    simp
  · rw [getD_eq_default_of_le _ _ _ (by simpa using h),
      getD_eq_default_of_le _ _ _ h]
    simp

theorem dft_congr (x y : ℕ → ℂ) (m j : ℕ) (h : ∀ t, t < m → x t = y t) :
    dft x m j = dft y m j := by
  unfold dft
  apply Finset.sum_congr rfl
  intro t ht
  rw [h t (Finset.mem_range.mp ht)]

end FFTA

namespace FFTA

/-- Core correctness of `fft1D` on power-of-two lengths: the returned arrays
hold the forward, unnormalized DFT of the input pair. -/
theorem fft1D_val (k : ℕ) (re im : List ℝ) (hre : re.length = 2 ^ k)
    (him : im.length = 2 ^ k) (p : ℕ) (hp : p < 2 ^ k) :
    (fft1D re im).1.getD p 0 =
      (dft (fun t => ⟨re.getD t 0, im.getD t 0⟩) (2 ^ k) p).re ∧
    (fft1D re im).2.getD p 0 =
      (dft (fun t => ⟨re.getD t 0, im.getD t 0⟩) (2 ^ k) p).im := by
  rcases Nat.eq_zero_or_pos k with hk0 | hkpos
  · subst hk0
    have hp0 : p = 0 := by
      have h1 : (2 : ℕ) ^ 0 = 1 := by norm_num
      omega
    subst hp0
    have hN1 : re.length ≤ 1 := by
      rw [hre]
      norm_num
    have hdft : dft (fun t => (⟨re.getD t 0, im.getD t 0⟩ : ℂ)) (2 ^ 0) 0 =
        ⟨re.getD 0 0, im.getD 0 0⟩ := by
      unfold dft
      have h1 : (2 : ℕ) ^ 0 = 1 := by norm_num
      rw [h1]
      rw [Finset.sum_range_one]
      have harg : ((0 : ℕ) : ℝ) * ((0 : ℕ) : ℝ) / ((1 : ℕ) : ℝ) = 0 := by
        norm_num
      rw [harg, E_zero, mul_one]
    unfold fft1D
    rw [if_pos hN1, hdft]
    exact ⟨rfl, rfl⟩
  · obtain ⟨k', rfl⟩ : ∃ k', k = k' + 1 := ⟨k - 1, by omega⟩
    have h2le : 2 ≤ 2 ^ (k' + 1) := by
      calc (2 : ℕ) = 2 ^ 1 := by norm_num
        _ ≤ 2 ^ (k' + 1) := Nat.pow_le_pow_right (by norm_num) (by omega)
    have hN2 : ¬ re.length ≤ 1 := by omega
    have hplen : (toPadded re im (2 ^ (k' + 1))).length = 2 ^ (k' + 1) :=
      length_toPadded _ _ _
    have hcore := val_fftLoop k' (toPadded re im (2 ^ (k' + 1))) hplen p hp
    unfold val at hcore
    have hdfteq : dft (fun q => (toPadded re im (2 ^ (k' + 1))).getD q 0)
        (2 ^ (k' + 1)) p =
        dft (fun t => (⟨re.getD t 0, im.getD t 0⟩ : ℂ)) (2 ^ (k' + 1)) p := by
      apply dft_congr
      intro t ht
      have := val_toPadded re im (2 ^ (k' + 1)) t ht
      unfold val at this
      exact this
    rw [hdfteq] at hcore
    unfold fft1D
    rw [if_neg hN2]
    simp only [hre]
    have hpad2 : padLen (2 ^ (k' + 1)) = 2 ^ (k' + 1) :=
      padLen_eq_self_iff _ |>.mpr ⟨k' + 1, rfl⟩
    rw [hpad2, if_pos rfl, getD_map_re, getD_map_im, hcore]
    exact ⟨rfl, rfl⟩

/-- The arrays `fft1D` returns have the length of the inputs — the internal
padding is sliced away before returning. -/
theorem fft1D_length (re im : List ℝ) (h : im.length = re.length) :
    (fft1D re im).1.length = re.length ∧
    (fft1D re im).2.length = re.length := by
  unfold fft1D
  by_cases hN : re.length ≤ 1
  · rw [if_pos hN]
    exact ⟨rfl, h⟩
  · rw [if_neg hN]
    simp only
    have hflen : (fftLoop (padLen re.length)
        (bitrevLoop (padLen re.length)
          (toPadded re im (padLen re.length)))).length = padLen re.length := by
      rw [length_fftLoop, length_bitrevLoop, length_toPadded]
    by_cases hpad : re.length = padLen re.length
    · rw [if_pos hpad]
      constructor <;> rw [List.length_map, hflen, ← hpad]
    · rw [if_neg hpad]
      have hmin : min re.length (padLen re.length) = re.length :=
        Nat.min_eq_left (le_padLen _ (by omega))
      constructor <;> rw [List.length_map, List.length_take, hflen, hmin]

end FFTA

namespace FFTA

/-- One row pass of `fft2D`: extract row `y` into fresh buffers, run `fft1D`,
write the result back into the row's cells. -/
noncomputable def rowPass (w : ℕ) (y : ℕ) (st : List ℂ) : List ℂ :=
  let rowReal := (List.range w).map fun x => (st.getD (y * w + x) 0).re
  let rowImag := (List.range w).map fun x => (st.getD (y * w + x) 0).im
  let f := fft1D rowReal rowImag
  (List.range w).foldl
    (fun acc x => acc.set (y * w + x) ⟨f.1.getD x 0, f.2.getD x 0⟩) st

/-- One column pass of `fft2D`. -/
noncomputable def colPass (w h : ℕ) (x : ℕ) (st : List ℂ) : List ℂ :=
  let colReal := (List.range h).map fun y => (st.getD (y * w + x) 0).re
  let colImag := (List.range h).map fun y => (st.getD (y * w + x) 0).im
  let f := fft1D colReal colImag
  (List.range h).foldl
    (fun acc y => acc.set (y * w + x) ⟨f.1.getD y 0, f.2.getD y 0⟩) st

/-- `fft2D(data, width, height)`: copy the real input into a complex field
(imaginary part zero), FFT every row, then every column. -/
noncomputable def fft2D (data : List ℝ) (w h : ℕ) : List ℂ :=
  let init := (List.range (w * h)).map fun i => (⟨data.getD i 0, 0⟩ : ℂ)
  let afterRows := (List.range h).foldl (fun acc y => rowPass w y acc) init
  (List.range w).foldl (fun acc x => colPass w h x acc) afterRows

/-- The grayscale conversion of `computeFFT`:
`(0.299·R + 0.587·G + 0.114·B) / 255` per pixel, alpha ignored. -/
noncomputable def grayscaleOf (data : List ℝ) (w h : ℕ) : List ℝ :=
  (List.range (w * h)).map fun i =>
    (0.299 * data.getD (i * 4) 0 + 0.587 * data.getD (i * 4 + 1) 0 +
      0.114 * data.getD (i * 4 + 2) 0) / 255

/-- The magnitude spectrum of `computeFFT`: `sqrt(real² + imag²)` per cell. -/
noncomputable def magnitudeOf (res : List ℂ) (w h : ℕ) : List ℝ :=
  (List.range (w * h)).map fun i =>
    Real.sqrt ((res.getD i 0).re * (res.getD i 0).re +
      (res.getD i 0).im * (res.getD i 0).im)

/-- `maxMag` of `computeFFT`: running maximum, updated by
`if (magnitude[i] > maxMag) maxMag = magnitude[i]` starting from `0`. -/
noncomputable def maxMagOf (mag : List ℝ) : ℝ :=
  mag.foldl (fun m v => if v > m then v else m) 0

/-- The log-scaled intensity of `visualizeFFT`:
`Math.floor((log(1 + mag) / log(1 + maxMag)) * 255)`. -/
noncomputable def intensityOf (m maxMag : ℝ) : ℤ :=
  ⌊Real.log (1 + m) / Real.log (1 + maxMag) * 255⌋

/-- The per-pixel body of the `visualizeFFT` display loop at destination
`(x, y)`: shifted source coordinates (`Math.floor(width/2)` is `w / 2` on
naturals), log-scaled intensity, and the four RGBA stores at the destination
index. -/
noncomputable def writePixel (mag : List ℝ) (w h : ℕ) (maxMag : ℝ)
    (buf : List ℤ) (y x : ℕ) : List ℤ :=
  let shiftedX := (x + w / 2) % w
  let shiftedY := (y + h / 2) % h
  let i := shiftedY * w + shiftedX
  let originalI := y * w + x
  let intensity := intensityOf (mag.getD i 0) maxMag
  ((((buf.set (originalI * 4) intensity).set (originalI * 4 + 1) intensity).set
    (originalI * 4 + 2) intensity).set (originalI * 4 + 3) 255)

/-- The visualization buffer of `visualizeFFT`: a fresh RGBA buffer (zeroed, as
`createImageData` returns) written pixel by pixel, `y` outer, `x` inner. -/
noncomputable def vizBuffer (mag : List ℝ) (w h : ℕ) (maxMag : ℝ) : List ℤ :=
  (List.range h).foldl
    (fun accY y =>
      (List.range w).foldl (fun accX x => writePixel mag w h maxMag accX y x) accY)
    (List.replicate (w * h * 4) 0)

/-- What the loop body stores at channel `c` of destination `(x, y)`. -/
noncomputable def destVal (mag : List ℝ) (w h : ℕ) (maxMag : ℝ)
    (y x c : ℕ) : ℤ :=
  if c = 3 then 255
  else intensityOf (mag.getD (((y + h / 2) % h) * w + (x + w / 2) % w) 0) maxMag

theorem length_writePixel (mag : List ℝ) (w h : ℕ) (maxMag : ℝ)
    (buf : List ℤ) (y x : ℕ) :
    (writePixel mag w h maxMag buf y x).length = buf.length := by
  simp [writePixel]

theorem val_writePixel (mag : List ℝ) (w h : ℕ) (maxMag : ℝ)
    (buf : List ℤ) (y x : ℕ) (hfit : (y * w + x) * 4 + 3 < buf.length)
    (q : ℕ) :
    (writePixel mag w h maxMag buf y x).getD q 0 =
      if q / 4 = y * w + x ∧ q % 4 < 4 ∧ q / 4 * 4 + q % 4 = q then
        destVal mag w h maxMag y x (q % 4)
      else buf.getD q 0 := by
  unfold writePixel destVal
  simp only
  rw [getD_set, getD_set, getD_set, getD_set]
  simp only [List.length_set]
  by_cases h3 : q = (y * w + x) * 4 + 3
  · rw [if_pos ⟨h3, by omega⟩, if_pos (by omega)]
    have hq4 : q % 4 = 3 := by omega
    rw [hq4, if_pos rfl]
  · rw [if_neg (by omega)]
    by_cases h2 : q = (y * w + x) * 4 + 2
    · rw [if_pos ⟨h2, by omega⟩, if_pos (by omega)]
      have hq4 : q % 4 = 2 := by omega
      rw [hq4, if_neg (by omega)]
    · rw [if_neg (by omega)]
      by_cases h1 : q = (y * w + x) * 4 + 1
      · rw [if_pos ⟨h1, by omega⟩, if_pos (by omega)]
        have hq4 : q % 4 = 1 := by omega
        rw [hq4, if_neg (by omega)]
      · rw [if_neg (by omega)]
        by_cases h0 : q = (y * w + x) * 4
        · rw [if_pos ⟨h0, by omega⟩, if_pos (by omega)]
          have hq4 : q % 4 = 0 := by omega
          rw [hq4, if_neg (by omega)]
        · rw [if_neg (by omega), if_neg (by omega)]

end FFTA

namespace FFTA

theorem decode_mod (w y x : ℕ) (hx : x < w) : (y * w + x) % w = x := by
  have h1 : y * w + x = x + y * w := by ring
  rw [h1, Nat.add_mul_mod_self_right, Nat.mod_eq_of_lt hx]

theorem decode_div (w y x : ℕ) (hx : x < w) : (y * w + x) / w = y := by
  have h1 : y * w + x = x + y * w := by ring
  rw [h1, Nat.add_mul_div_right _ _ (by omega : 0 < w), Nat.div_eq_of_lt hx]
  omega

theorem pix_lt (w h y x : ℕ) (hy : y < h) (hx : x < w) : y * w + x < w * h := by
  have h1 : (y + 1) * w ≤ h * w := Nat.mul_le_mul_right w (by omega)
  have h2 : (y + 1) * w = y * w + w := by ring
  have h3 : h * w = w * h := by ring
  omega

/-- Partial run of the inner (`x`) display loop of row `y`: pixels `(x', y)`
with `x' < m` hold their channel stores, everything else is untouched. -/
theorem val_rowWrites (mag : List ℝ) (w h : ℕ) (maxMag : ℝ) (y : ℕ)
    (hy : y < h) (buf : List ℤ) (hlen : buf.length = w * h * 4) :
    ∀ m, m ≤ w → ∀ q, q < w * h * 4 →
      ((List.range m).foldl
        (fun acc x => writePixel mag w h maxMag acc y x) buf).getD q 0 =
      if q / 4 / w = y ∧ q / 4 % w < m then
        destVal mag w h maxMag y (q / 4 % w) (q % 4)
      else buf.getD q 0 := by
  intro m
  induction m with
  | zero =>
    intro _ q _
    simp only [List.range_zero, List.foldl_nil]
    rw [if_neg (by omega)]
  | succ m ih =>
    intro hm q hq
    have hm' : m ≤ w := by omega
    rw [foldl_range_succ]
    set B := (List.range m).foldl
      (fun acc x => writePixel mag w h maxMag acc y x) buf with hB
    have hBlen : B.length = w * h * 4 := by
      rw [hB, length_foldl _ (fun acc x => length_writePixel _ _ _ _ acc _ _), hlen]
    have hfit : (y * w + m) * 4 + 3 < B.length := by
      have := pix_lt w h y m hy (by omega)
      omega
    rw [val_writePixel mag w h maxMag B y m hfit q]
    have hdm4 := Nat.div_add_mod q 4
    by_cases hqoi : q / 4 = y * w + m
    · rw [if_pos ⟨hqoi, by omega, by omega⟩]
      have hdiv : q / 4 / w = y := by rw [hqoi]; exact decode_div w y m (by omega)
      have hmod : q / 4 % w = m := by rw [hqoi]; exact decode_mod w y m (by omega)
      rw [if_pos ⟨hdiv, by omega⟩, hmod]
    · rw [if_neg (by omega), ih hm' q hq]
      have hdm := Nat.div_add_mod (q / 4) w
      by_cases hcase : q / 4 / w = y ∧ q / 4 % w = m
      · exfalso
        apply hqoi
        have hcomm : w * y = y * w := by ring
        rw [hcase.1, hcase.2] at hdm
        omega
      · have hiff : (q / 4 / w = y ∧ q / 4 % w < m) ↔
            (q / 4 / w = y ∧ q / 4 % w < m + 1) := by
          constructor
          · rintro ⟨ha, hb⟩
            exact ⟨ha, by omega⟩
          · rintro ⟨ha, hb⟩
            refine ⟨ha, ?_⟩
            rcases Nat.lt_or_ge (q / 4 % w) m with hlt | hge
            · exact hlt
            · exact absurd ⟨ha, by omega⟩ hcase
        rw [if_congr hiff rfl rfl]

/-- The display double loop: every pixel of a fully processed row holds its
channel stores; rows not yet processed keep the zeroed buffer. -/
theorem val_allWrites (mag : List ℝ) (w h : ℕ) (maxMag : ℝ) :
    ∀ m, m ≤ h → ∀ q, q < w * h * 4 →
      ((List.range m).foldl
        (fun accY y => (List.range w).foldl
          (fun accX x => writePixel mag w h maxMag accX y x) accY)
        (List.replicate (w * h * 4) 0)).getD q 0 =
      if q / 4 / w < m then
        destVal mag w h maxMag (q / 4 / w) (q / 4 % w) (q % 4)
      else 0 := by
  intro m
  induction m with
  | zero =>
    intro _ q hq
    simp only [List.range_zero, List.foldl_nil]
    rw [if_neg (Nat.not_lt_zero _)]
    rw [getD_eq_of_lt _ _ _ (by simpa using hq)]
    simp
  | succ m ih =>
    intro hm q hq
    have hm' : m ≤ h := by omega
    rw [foldl_range_succ]
    set B := (List.range m).foldl
      (fun accY y => (List.range w).foldl
        (fun accX x => writePixel mag w h maxMag accX y x) accY)
      (List.replicate (w * h * 4) 0) with hB
    have hBlen : B.length = w * h * 4 := by
      rw [hB, length_foldl _ (fun acc y =>
        length_foldl _ (fun acc2 x => length_writePixel _ _ _ _ acc2 _ _) _ acc)]
      simp
    rw [val_rowWrites mag w h maxMag m (by omega) B hBlen w (le_refl w) q hq,
      ih hm' q hq]
    have hwpos : 0 < w ∨ w = 0 := by omega
    have hmodlt : w = 0 ∨ q / 4 % w < w := by
      rcases hwpos with h1 | h1
      · exact Or.inr (Nat.mod_lt _ h1)
      · exact Or.inl h1
    by_cases hrow : q / 4 / w = m
    · rcases hmodlt with hw0 | hlt
      · exfalso
        subst hw0
        simp at hq
      · rw [if_pos ⟨hrow, hlt⟩, if_pos (show q / 4 / w < m + 1 by omega), hrow]
    · rw [if_neg (by omega)]
      by_cases hlt : q / 4 / w < m
      · rw [if_pos hlt, if_pos (by omega)]
      · rw [if_neg hlt, if_neg (by omega)]

/-- The final buffer: channel `c` of destination pixel `(x, y)` holds `255`
for alpha and the log-scaled intensity of the `fftshift`-ed source magnitude
for R, G, B. -/
theorem val_vizBuffer (mag : List ℝ) (w h : ℕ) (maxMag : ℝ) (x y c : ℕ)
    (hx : x < w) (hy : y < h) (hc : c < 4) :
    (vizBuffer mag w h maxMag).getD ((y * w + x) * 4 + c) 0 =
      destVal mag w h maxMag y x c := by
  unfold vizBuffer
  have hpix := pix_lt w h y x hy hx
  have hq : (y * w + x) * 4 + c < w * h * 4 := by omega
  rw [val_allWrites mag w h maxMag h (le_refl h) _ hq]
  have hq4div : ((y * w + x) * 4 + c) / 4 = y * w + x := by omega
  have hq4mod : ((y * w + x) * 4 + c) % 4 = c := by omega
  rw [hq4div, hq4mod, decode_div w y x hx, decode_mod w y x hx, if_pos hy]

end FFTA

namespace FFTA

/-- Whether the arrays `fft1D` returns are the caller's own objects: the
`N ≤ 1` early return hands back the inputs, and in the `N === len` case the
transform runs in place on the input arrays and returns them unsliced; only
the padding branch allocates fresh arrays. -/
def fft1DAliased (N : ℕ) : Bool := decide (N ≤ 1) || decide (padLen N = N)

/-- Contents of the caller's arrays after `fft1D` returns: untouched unless
the in-place branch ran (no padding copy was made), in which case they hold
the transformed values. -/
noncomputable def fft1DInputAfter (re im : List ℝ) : List ℝ × List ℝ :=
  if re.length ≤ 1 then (re, im)
  else if padLen re.length = re.length then fft1D re im
  else (re, im)

end FFTA

/-! ## The ColorAdjustments module (`src/colorAdjustments.js`) -/

namespace ColorAdj

/-- JavaScript `Math.round`: floor of `x + 1/2` (half rounds up, also for
negative arguments). -/
def jsRound (x : ℚ) : ℤ := ⌊x + 1 / 2⌋

/-- `Math.min(255, Math.max(0, z))`. -/
def clampByte (z : ℤ) : ℤ := min 255 (max 0 z)

/-- The scaling loop of `applyToImageData`: walks the byte buffer four bytes
at a time (`i += 4`), replacing the bytes at offsets `i`, `i+1`, `i+2` by
their scaled, rounded and clamped values and leaving `i+3` (alpha) alone.
The partial-chunk cases mirror typed-array semantics (writes past the end are
dropped); they are unreachable for a real `ImageData`, whose byte length is
`4·width·height`. -/
def adjustData (rS gS bS : ℚ) : List ℤ → List ℤ
  | r :: g :: b :: a :: rest =>
    clampByte (jsRound (r * rS)) :: clampByte (jsRound (g * gS)) ::
      clampByte (jsRound (b * bS)) :: a :: adjustData rS gS bS rest
  | [r, g, b] =>
    [clampByte (jsRound (r * rS)), clampByte (jsRound (g * gS)),
      clampByte (jsRound (b * bS))]
  | [r, g] => [clampByte (jsRound (r * rS)), clampByte (jsRound (g * gS))]
  | [r] => [clampByte (jsRound (r * rS))]
  | [] => []

/-- An `ImageData` snapshot: width, height and the flat RGBA byte array. -/
structure ImageDataM where
  width : ℕ
  height : ℕ
  data : List ℤ

/-- `ColorAdjustments.applyToImageData`: copy the input into a fresh buffer,
scale every pixel's R, G, B channels by `red/100`, `green/100`, `blue/100`
(round, then clamp to a byte), paint it onto the background canvas and read
back an image of the same width and height. -/
def applyToImageData (red green blue : ℤ) (img : ImageDataM) : ImageDataM :=
  { width := img.width, height := img.height,
    data := adjustData ((red : ℚ) / 100) ((green : ℚ) / 100)
      ((blue : ℚ) / 100) img.data }

theorem length_adjustData (rS gS bS : ℚ) :
    ∀ l : List ℤ, (adjustData rS gS bS l).length = l.length
  | r :: g :: b :: a :: rest => by
    rw [adjustData]
    simp [length_adjustData rS gS bS rest]
  | [r, g, b] => rfl
  | [r, g] => rfl
  | [r] => rfl
  | [] => rfl

/-- Cell-level description of the scaling loop: alpha offsets are copied,
color offsets are scaled by their channel's factor, rounded and clamped
(out-of-range reads agree because a scaled zero rounds and clamps to zero). -/
theorem getD_adjustData (rS gS bS : ℚ) :
    ∀ (l : List ℤ) (j : ℕ),
      (adjustData rS gS bS l).getD j 0 =
        if j % 4 = 3 then l.getD j 0
        else clampByte (jsRound ((l.getD j 0 : ℚ) *
          (if j % 4 = 0 then rS else if j % 4 = 1 then gS else bS)))
  | r :: g :: b :: a :: rest, 0 => by
    rw [adjustData]
    norm_num
  | r :: g :: b :: a :: rest, 1 => by
    rw [adjustData]
    norm_num
  | r :: g :: b :: a :: rest, 2 => by
    rw [adjustData]
    norm_num
  | r :: g :: b :: a :: rest, 3 => by
    rw [adjustData]
    norm_num
  | r :: g :: b :: a :: rest, (j + 4) => by
    rw [adjustData]
    have hmod : (j + 4) % 4 = j % 4 := Nat.add_mod_right j 4
    have hstep : ∀ (u v w z : ℤ) (T : List ℤ),
        (u :: v :: w :: z :: T).getD (j + 4) 0 = T.getD j 0 := by
      intro u v w z T
      rfl
    rw [hstep, hstep, hmod]
    exact getD_adjustData rS gS bS rest j
  | [r, g, b], 0 => by
    rw [adjustData]
    norm_num
  | [r, g, b], 1 => by
    rw [adjustData]
    norm_num
  | [r, g, b], 2 => by
    rw [adjustData]
    norm_num
  | [r, g, b], (j + 3) => by
    rw [adjustData]
    have hz : ∀ d : ℤ, ([r, g, b] : List ℤ).getD (j + 3) d = d := by
      intro d
      rfl
    by_cases hmod : (j + 3) % 4 = 3
    · rw [if_pos hmod]
      rfl
    · rw [if_neg hmod]
      show (0 : ℤ) = clampByte (jsRound ((0 : ℚ) * _))
      rw [zero_mul]
      norm_num [clampByte, jsRound]
  | [r, g], 0 => by
    rw [adjustData]
    norm_num
  | [r, g], 1 => by
    rw [adjustData]
    norm_num
  | [r, g], (j + 2) => by
    rw [adjustData]
    by_cases hmod : (j + 2) % 4 = 3
    · rw [if_pos hmod]
      rfl
    · rw [if_neg hmod]
      show (0 : ℤ) = clampByte (jsRound ((0 : ℚ) * _))
      rw [zero_mul]
      norm_num [clampByte, jsRound]
  | [r], 0 => by
    rw [adjustData]
    norm_num
  | [r], (j + 1) => by
    rw [adjustData]
    by_cases hmod : (j + 1) % 4 = 3
    · rw [if_pos hmod]
      rfl
    · rw [if_neg hmod]
      show (0 : ℤ) = clampByte (jsRound ((0 : ℚ) * _))
      rw [zero_mul]
      norm_num [clampByte, jsRound]
  | [], j => by
    rw [adjustData]
    by_cases hmod : j % 4 = 3
    · rw [if_pos hmod]
    · rw [if_neg hmod]
      show (0 : ℤ) = clampByte (jsRound ((0 : ℚ) * _))
      rw [zero_mul]
      norm_num [clampByte, jsRound]

end ColorAdj

/-! ## The CropTool module (`src/cropTool.js`) -/

namespace Crop

/-- A canvas-space point (`getEventPosition` rounds to integers). -/
structure Pt where
  x : ℤ
  y : ℤ

/-- `isValidCropArea`: both drag endpoints present and the selection spans
more than 5 pixels in each axis. -/
def isValidCropArea : Option Pt → Option Pt → Bool
  | some s, some e => (5 < |e.x - s.x|) && (5 < |e.y - s.y|)
  | _, _ => false

/-- The `{x, y, width, height}` rectangle `getCropDimensions` returns. -/
structure Rect where
  x : ℤ
  y : ℤ
  width : ℤ
  height : ℤ

/-- `getCropDimensions`: `null` without a valid crop area; otherwise the
corner-wise minimum as origin and the absolute drag extents as size. -/
def getCropDimensions (s e : Option Pt) : Option Rect :=
  match s, e with
  | some s, some e =>
    if (5 < |e.x - s.x|) && (5 < |e.y - s.y|) then
      some ⟨min s.x e.x, min s.y e.y, |e.x - s.x|, |e.y - s.y|⟩
    else none
  | _, _ => none

/-- A canvas: extent plus an abstract pixel field. -/
structure CanvasM where
  width : ℤ
  height : ℤ
  pix : ℤ → ℤ → ℤ

/-- An extracted `ImageData` region. -/
structure ImageDataG where
  width : ℤ
  height : ℤ
  pix : ℤ → ℤ → ℤ

/-- `getImageData(x, y, w, h)`: the rectangle's pixels relative to its own
origin; reads outside the canvas are transparent black. -/
def getImageData (cv : CanvasM) (x y w h : ℤ) : ImageDataG :=
  { width := w, height := h,
    pix := fun i j =>
      if 0 ≤ x + i ∧ x + i < cv.width ∧ 0 ≤ y + j ∧ y + j < cv.height ∧
          0 ≤ i ∧ i < w ∧ 0 ≤ j ∧ j < h
      then cv.pix (x + i) (y + j) else 0 }

/-- The crop tool's mutable state: drag endpoints, the background canvas and
the display canvas extent. -/
structure CropState where
  cropStart : Option Pt
  cropEnd : Option Pt
  bgCanvas : CanvasM
  canvasWidth : ℤ
  canvasHeight : ℤ

/-- `applyCrop`: throws (state untouched) when there is no valid crop area or
the selected rectangle is narrower or shorter than 10 pixels; otherwise
extracts the selection, resizes both canvases (resizing clears a canvas),
paints the extract at the origin, resets the endpoints and returns the new
background contents. -/
def applyCrop (st : CropState) : CropState × Except String ImageDataG :=
  if ¬ (isValidCropArea st.cropStart st.cropEnd = true) then
    (st, Except.error "Please select a crop area first.")
  else
    match getCropDimensions st.cropStart st.cropEnd with
    | none => (st, Except.error "Please select a crop area first.")
    | some d =>
      if d.width < 10 ∨ d.height < 10 then
        (st, Except.error "Crop area is too small.")
      else
        let cropped := getImageData st.bgCanvas d.x d.y d.width d.height
        let newBg : CanvasM :=
          { width := d.width, height := d.height,
            pix := fun i j =>
              if 0 ≤ i ∧ i < d.width ∧ 0 ≤ j ∧ j < d.height
              then cropped.pix i j else 0 }
        ({ cropStart := none, cropEnd := none, bgCanvas := newBg,
           canvasWidth := d.width, canvasHeight := d.height },
         Except.ok (getImageData newBg 0 0 d.width d.height))

/-- A valid crop area always yields the spanned rectangle. -/
theorem getCropDimensions_some (s e : Pt)
    (h : isValidCropArea (some s) (some e) = true) :
    getCropDimensions (some s) (some e) =
      some ⟨min s.x e.x, min s.y e.y, |e.x - s.x|, |e.y - s.y|⟩ := by
  simp only [isValidCropArea] at h
  simp only [getCropDimensions]
  rw [if_pos h]

end Crop

namespace FFTA

/-- Evaluation of `fft1D` on a constant pair `[c, c]` (zero imaginary):
DC bin `2c`, second bin `0`. -/
theorem fft1D_pair (c : ℝ) : fft1D [c, c] [0, 0] = ([2 * c, 0], [0, 0]) := by
  have hre : ([c, c] : List ℝ).length = 2 ^ 1 := by norm_num
  have him : ([0, 0] : List ℝ).length = 2 ^ 1 := by norm_num
  have hlen := fft1D_length [c, c] [0, 0] rfl
  have hdft0 : dft (fun t => (⟨([c, c] : List ℝ).getD t 0,
      ([0, 0] : List ℝ).getD t 0⟩ : ℂ)) (2 ^ 1) 0 = ⟨2 * c, 0⟩ := by
    unfold dft
    have h2 : (2 : ℕ) ^ 1 = 2 := by norm_num
    rw [h2, Finset.sum_range_succ, Finset.sum_range_one]
    have ha0 : ((0 : ℕ) : ℝ) * ((0 : ℕ) : ℝ) / ((2 : ℕ) : ℝ) = 0 := by norm_num
    have ha1 : ((0 : ℕ) : ℝ) * ((1 : ℕ) : ℝ) / ((2 : ℕ) : ℝ) = 0 := by norm_num
    rw [ha0, ha1, E_zero]
    apply Complex.ext <;> simp <;> ring
  have hdft1 : dft (fun t => (⟨([c, c] : List ℝ).getD t 0,
      ([0, 0] : List ℝ).getD t 0⟩ : ℂ)) (2 ^ 1) 1 = ⟨0, 0⟩ := by
    unfold dft
    have h2 : (2 : ℕ) ^ 1 = 2 := by norm_num
    rw [h2, Finset.sum_range_succ, Finset.sum_range_one]
    have ha0 : ((1 : ℕ) : ℝ) * ((0 : ℕ) : ℝ) / ((2 : ℕ) : ℝ) = 0 := by norm_num
    have ha1 : ((1 : ℕ) : ℝ) * ((1 : ℕ) : ℝ) / ((2 : ℕ) : ℝ) = 1 / 2 := by
      norm_num
    rw [ha0, ha1, E_zero, E_half]
    apply Complex.ext <;> simp
  have hv0 := fft1D_val 1 [c, c] [0, 0] hre him 0 (by norm_num)
  have hv1 := fft1D_val 1 [c, c] [0, 0] hre him 1 (by norm_num)
  rw [hdft0] at hv0
  rw [hdft1] at hv1
  have h1len : (fft1D [c, c] [0, 0]).1.length = 2 := by
    rw [hlen.1]
    rfl
  have h2len : (fft1D [c, c] [0, 0]).2.length = 2 := by
    rw [hlen.2]
    rfl
  have hfst : (fft1D [c, c] [0, 0]).1 = [2 * c, 0] := by
    apply List.ext_getElem (by rw [h1len]; rfl)
    intro i hi1 hi2
    rw [h1len] at hi1
    interval_cases i
    · rw [← getD_eq_of_lt _ 0 0 (by omega)]
      have := hv0.1
      simpa using this
    · rw [← getD_eq_of_lt _ 1 0 (by omega)]
      have := hv1.1
      simpa using this
  have hsnd : (fft1D [c, c] [0, 0]).2 = [0, 0] := by
    apply List.ext_getElem (by rw [h2len]; rfl)
    intro i hi1 hi2
    rw [h2len] at hi1
    interval_cases i
    · rw [← getD_eq_of_lt _ 0 0 (by omega)]
      have := hv0.2
      simpa using this
    · rw [← getD_eq_of_lt _ 1 0 (by omega)]
      have := hv1.2
      simpa using this
  calc fft1D [c, c] [0, 0] = ((fft1D [c, c] [0, 0]).1, (fft1D [c, c] [0, 0]).2) := rfl
    _ = ([2 * c, 0], [0, 0]) := by rw [hfst, hsnd]

end FFTA

namespace FFTA

theorem rowPass_white0 :
    rowPass 2 0 [⟨1, 0⟩, ⟨1, 0⟩, ⟨1, 0⟩, ⟨1, 0⟩] =
      [⟨2, 0⟩, ⟨0, 0⟩, ⟨1, 0⟩, ⟨1, 0⟩] := by
  have hRR : (List.range 2).map
      (fun x => (([⟨1, 0⟩, ⟨1, 0⟩, ⟨1, 0⟩, ⟨1, 0⟩] : List ℂ).getD (0 * 2 + x) 0).re) =
      [1, 1] := rfl
  have hRI : (List.range 2).map
      (fun x => (([⟨1, 0⟩, ⟨1, 0⟩, ⟨1, 0⟩, ⟨1, 0⟩] : List ℂ).getD (0 * 2 + x) 0).im) =
      [0, 0] := rfl
  unfold rowPass
  simp only [hRR, hRI, fft1D_pair]
  simp only [show List.range 2 = [0, 1] from rfl, List.foldl_cons, List.foldl_nil]
  norm_num [List.set, List.getD, Complex.ext_iff]

end FFTA

namespace FFTA

theorem rowPass_white1 :
    rowPass 2 1 [⟨2, 0⟩, ⟨0, 0⟩, ⟨1, 0⟩, ⟨1, 0⟩] =
      [⟨2, 0⟩, ⟨0, 0⟩, ⟨2, 0⟩, ⟨0, 0⟩] := by
  have hRR : (List.range 2).map
      (fun x => (([⟨2, 0⟩, ⟨0, 0⟩, ⟨1, 0⟩, ⟨1, 0⟩] : List ℂ).getD (1 * 2 + x) 0).re) =
      [1, 1] := rfl
  have hRI : (List.range 2).map
      (fun x => (([⟨2, 0⟩, ⟨0, 0⟩, ⟨1, 0⟩, ⟨1, 0⟩] : List ℂ).getD (1 * 2 + x) 0).im) =
      [0, 0] := rfl
  unfold rowPass
  simp only [hRR, hRI, fft1D_pair]
  simp only [show List.range 2 = [0, 1] from rfl, List.foldl_cons, List.foldl_nil]
  norm_num [List.set, List.getD, Complex.ext_iff]

theorem colPass_white0 :
    colPass 2 2 0 [⟨2, 0⟩, ⟨0, 0⟩, ⟨2, 0⟩, ⟨0, 0⟩] =
      [⟨4, 0⟩, ⟨0, 0⟩, ⟨0, 0⟩, ⟨0, 0⟩] := by
  have hCR : (List.range 2).map
      (fun y => (([⟨2, 0⟩, ⟨0, 0⟩, ⟨2, 0⟩, ⟨0, 0⟩] : List ℂ).getD (y * 2 + 0) 0).re) =
      [2, 2] := rfl
  have hCI : (List.range 2).map
      (fun y => (([⟨2, 0⟩, ⟨0, 0⟩, ⟨2, 0⟩, ⟨0, 0⟩] : List ℂ).getD (y * 2 + 0) 0).im) =
      [0, 0] := rfl
  unfold colPass
  simp only [hCR, hCI, fft1D_pair]
  simp only [show List.range 2 = [0, 1] from rfl, List.foldl_cons, List.foldl_nil]
  norm_num [List.set, List.getD, Complex.ext_iff]

theorem colPass_white1 :
    colPass 2 2 1 [⟨4, 0⟩, ⟨0, 0⟩, ⟨0, 0⟩, ⟨0, 0⟩] =
      [⟨4, 0⟩, ⟨0, 0⟩, ⟨0, 0⟩, ⟨0, 0⟩] := by
  have hCR : (List.range 2).map
      (fun y => (([⟨4, 0⟩, ⟨0, 0⟩, ⟨0, 0⟩, ⟨0, 0⟩] : List ℂ).getD (y * 2 + 1) 0).re) =
      [0, 0] := rfl
  have hCI : (List.range 2).map
      (fun y => (([⟨4, 0⟩, ⟨0, 0⟩, ⟨0, 0⟩, ⟨0, 0⟩] : List ℂ).getD (y * 2 + 1) 0).im) =
      [0, 0] := rfl
  unfold colPass
  simp only [hCR, hCI, fft1D_pair]
  simp only [show List.range 2 = [0, 1] from rfl, List.foldl_cons, List.foldl_nil]
  norm_num [List.set, List.getD, Complex.ext_iff]

/-- The 2D FFT of the 2×2 all-ones field: a single DC bin of `4`. -/
theorem fft2D_white : fft2D [1, 1, 1, 1] 2 2 =
    [⟨4, 0⟩, ⟨0, 0⟩, ⟨0, 0⟩, ⟨0, 0⟩] := by
  have hinit : (List.range (2 * 2)).map
      (fun i => (⟨([1, 1, 1, 1] : List ℝ).getD i 0, 0⟩ : ℂ)) =
      [⟨1, 0⟩, ⟨1, 0⟩, ⟨1, 0⟩, ⟨1, 0⟩] := rfl
  unfold fft2D
  simp only [hinit]
  simp only [show List.range 2 = [0, 1] from rfl, List.foldl_cons, List.foldl_nil]
  rw [rowPass_white0, rowPass_white1, colPass_white0, colPass_white1]

end FFTA

namespace FFTA

theorem grayscale_white :
    grayscaleOf (List.replicate 16 255) 2 2 = [1, 1, 1, 1] := by
  have hdata : (List.replicate 16 (255 : ℝ)) =
      [255, 255, 255, 255, 255, 255, 255, 255,
       255, 255, 255, 255, 255, 255, 255, 255] := rfl
  unfold grayscaleOf
  rw [hdata]
  simp only [show List.range (2 * 2) = [0, 1, 2, 3] from rfl,
    List.map_cons, List.map_nil]
  norm_num [List.getD]

theorem mag_white :
    magnitudeOf [⟨4, 0⟩, ⟨0, 0⟩, ⟨0, 0⟩, ⟨0, 0⟩] 2 2 = [4, 0, 0, 0] := by
  have h16 : Real.sqrt 16 = 4 := by
    rw [show (16 : ℝ) = 4 ^ 2 by norm_num,
      Real.sqrt_sq (by norm_num : (0 : ℝ) ≤ 4)]
  unfold magnitudeOf
  simp only [show List.range (2 * 2) = [0, 1, 2, 3] from rfl,
    List.map_cons, List.map_nil]
  norm_num [List.getD, h16]

theorem maxMag_white : maxMagOf [4, 0, 0, 0] = 4 := by
  unfold maxMagOf
  simp only [List.foldl_cons, List.foldl_nil]
  rw [if_pos (by norm_num : (4 : ℝ) > 0), if_neg (by norm_num : ¬ (0 : ℝ) > 4),
    if_neg (by norm_num : ¬ (0 : ℝ) > 4), if_neg (by norm_num : ¬ (0 : ℝ) > 4)]

theorem intensityOf_4_4 : intensityOf 4 4 = 255 := by
  unfold intensityOf
  rw [show (1 : ℝ) + 4 = 5 by norm_num]
  have hlog : Real.log 5 ≠ 0 :=
    ne_of_gt (Real.log_pos (by norm_num))
  rw [div_self hlog, one_mul,
    show ((255 : ℝ)) = ((255 : ℤ) : ℝ) by norm_num, Int.floor_intCast]

theorem intensityOf_zero (M : ℝ) : intensityOf 0 M = 0 := by
  unfold intensityOf
  rw [show (1 : ℝ) + 0 = 1 by norm_num, Real.log_one, zero_div, zero_mul,
    Int.floor_zero]

end FFTA

namespace FFTA

theorem intensityOf_nonneg (m M : ℝ) (hm : 0 ≤ m) (hM : 0 < M) :
    0 ≤ intensityOf m M := by
  unfold intensityOf
  rw [Int.le_floor]
  push_cast
  have h1 : 0 ≤ Real.log (1 + m) := Real.log_nonneg (by linarith)
  have h2 : 0 < Real.log (1 + M) := Real.log_pos (by linarith)
  positivity

theorem intensityOf_le_255 (m M : ℝ) (hm : 0 ≤ m) (hmM : m ≤ M) (hM : 0 < M) :
    intensityOf m M ≤ 255 := by
  unfold intensityOf
  have h2 : 0 < Real.log (1 + M) := Real.log_pos (by linarith)
  have h1 : Real.log (1 + m) ≤ Real.log (1 + M) :=
    Real.log_le_log (by linarith) (by linarith)
  have hratio : Real.log (1 + m) / Real.log (1 + M) ≤ 1 :=
    (div_le_one h2).mpr h1
  have hle : Real.log (1 + m) / Real.log (1 + M) * 255 ≤ 255 := by nlinarith
  calc ⌊Real.log (1 + m) / Real.log (1 + M) * 255⌋ ≤ ⌊(255 : ℝ)⌋ :=
        Int.floor_le_floor hle
    _ = 255 := by
        rw [show ((255 : ℝ)) = ((255 : ℤ) : ℝ) by norm_num, Int.floor_intCast]

theorem intensityOf_mono (m1 m2 M : ℝ) (h1 : 0 ≤ m1) (h12 : m1 ≤ m2)
    (hM : 0 < M) : intensityOf m1 M ≤ intensityOf m2 M := by
  unfold intensityOf
  apply Int.floor_le_floor
  have hlpos : 0 < Real.log (1 + M) := Real.log_pos (by linarith)
  have hlog : Real.log (1 + m1) ≤ Real.log (1 + m2) :=
    Real.log_le_log (by linarith) (by linarith)
  have hdiv : Real.log (1 + m1) / Real.log (1 + M) ≤
      Real.log (1 + m2) / Real.log (1 + M) :=
    (div_le_div_iff_of_pos_right hlpos).mpr hlog
  nlinarith [hdiv]

end FFTA

open FFTA

/-! ## The claims -/

/-- C1: for every input whose length `N` is a power of two, `fft1D` returns the
forward, unnormalized discrete Fourier transform of the input complex sequence:
`output[p] = Σ_n input[n]·e^{-2πi·p·n/N}` (`dft` is exactly this sum, with
`E x = e^{-2πx·i}`), with no `1/N` scaling at any stage, over real-number
arithmetic. -/
theorem C1_fft1D_is_unnormalized_dft (k : ℕ) (re im : List ℝ)
    (hre : re.length = 2 ^ k) (him : im.length = 2 ^ k)
    (p : ℕ) (hp : p < 2 ^ k) :
    (fft1D re im).1.getD p 0 =
      (dft (fun n => ⟨re.getD n 0, im.getD n 0⟩) (2 ^ k) p).re ∧
    (fft1D re im).2.getD p 0 =
      (dft (fun n => ⟨re.getD n 0, im.getD n 0⟩) (2 ^ k) p).im :=
  fft1D_val k re im hre him p hp

theorem C1_witness :
    (fft1D [(1 : ℝ), 0] [(0 : ℝ), 0]).1.getD 0 0 =
      (dft (fun n => ⟨([(1 : ℝ), 0]).getD n 0, ([(0 : ℝ), 0]).getD n 0⟩)
        (2 ^ 1) 0).re ∧
    (fft1D [(1 : ℝ), 0] [(0 : ℝ), 0]).2.getD 0 0 =
      (dft (fun n => ⟨([(1 : ℝ), 0]).getD n 0, ([(0 : ℝ), 0]).getD n 0⟩)
        (2 ^ 1) 0).im :=
  C1_fft1D_is_unnormalized_dft 1 [1, 0] [0, 0] rfl rfl 0 (by decide)

/-- C2: `fft1D` pads to the next power of two `P = 2^⌈log2 N⌉` (`Nat.clog 2`
is `⌈log2 ·⌉`) before transforming and truncates back to the first `N`
entries, so the caller receives arrays of length exactly `N`; on a
power-of-two `N` the padding is a no-op (`paddedN = N`). -/
theorem C2_pad_and_truncate (re im : List ℝ) (him : im.length = re.length) :
    (fft1D re im).1.length = re.length ∧
    (fft1D re im).2.length = re.length ∧
    padLen re.length = 2 ^ Nat.clog 2 re.length ∧
    (∀ j, re.length = 2 ^ j → padLen re.length = re.length) := by
  obtain ⟨h1, h2⟩ := fft1D_length re im him
  refine ⟨h1, h2, padLen_eq _, ?_⟩
  intro j hj
  exact (padLen_eq_self_iff _).mpr ⟨j, hj⟩

theorem C2_witness :
    (fft1D [(1 : ℝ), 2, 3, 4, 5] [(0 : ℝ), 0, 0, 0, 0]).1.length =
      ([(1 : ℝ), 2, 3, 4, 5] : List ℝ).length ∧
    (fft1D [(1 : ℝ), 2, 3, 4, 5] [(0 : ℝ), 0, 0, 0, 0]).2.length =
      ([(1 : ℝ), 2, 3, 4, 5] : List ℝ).length ∧
    padLen ([(1 : ℝ), 2, 3, 4, 5] : List ℝ).length =
      2 ^ Nat.clog 2 ([(1 : ℝ), 2, 3, 4, 5] : List ℝ).length ∧
    (∀ j, ([(1 : ℝ), 2, 3, 4, 5] : List ℝ).length = 2 ^ j →
      padLen ([(1 : ℝ), 2, 3, 4, 5] : List ℝ).length =
        ([(1 : ℝ), 2, 3, 4, 5] : List ℝ).length) :=
  C2_pad_and_truncate [1, 2, 3, 4, 5] [0, 0, 0, 0, 0] rfl

/-- C3: end-to-end on the 2×2 all-white RGBA image (16 bytes of 255): the
grayscale field is `[1,1,1,1]`; the 2D FFT has a single non-zero (DC) bin `4`
at index `(0,0)` and zero elsewhere; the magnitude spectrum is `[4,0,0,0]`
with maximum `4`; and the visualization buffer has intensity `255` exactly at
the shifted centre pixel `(1,1)` (bytes 12–14) and intensity `0` at the R, G,
B bytes of every other pixel, with alpha `255` throughout. -/
theorem C3_two_by_two_white :
    grayscaleOf (List.replicate 16 255) 2 2 = [1, 1, 1, 1] ∧
    fft2D (grayscaleOf (List.replicate 16 255) 2 2) 2 2 =
      [⟨4, 0⟩, ⟨0, 0⟩, ⟨0, 0⟩, ⟨0, 0⟩] ∧
    magnitudeOf (fft2D (grayscaleOf (List.replicate 16 255) 2 2) 2 2) 2 2 =
      [4, 0, 0, 0] ∧
    maxMagOf (magnitudeOf (fft2D (grayscaleOf (List.replicate 16 255) 2 2) 2 2) 2 2) = 4 ∧
    (vizBuffer [4, 0, 0, 0] 2 2 4).getD 12 0 = 255 ∧
    (vizBuffer [4, 0, 0, 0] 2 2 4).getD 13 0 = 255 ∧
    (vizBuffer [4, 0, 0, 0] 2 2 4).getD 14 0 = 255 ∧
    (vizBuffer [4, 0, 0, 0] 2 2 4).getD 15 0 = 255 ∧
    (vizBuffer [4, 0, 0, 0] 2 2 4).getD 0 0 = 0 ∧
    (vizBuffer [4, 0, 0, 0] 2 2 4).getD 1 0 = 0 ∧
    (vizBuffer [4, 0, 0, 0] 2 2 4).getD 2 0 = 0 ∧
    (vizBuffer [4, 0, 0, 0] 2 2 4).getD 3 0 = 255 ∧
    (vizBuffer [4, 0, 0, 0] 2 2 4).getD 4 0 = 0 ∧
    (vizBuffer [4, 0, 0, 0] 2 2 4).getD 5 0 = 0 ∧
    (vizBuffer [4, 0, 0, 0] 2 2 4).getD 6 0 = 0 ∧
    (vizBuffer [4, 0, 0, 0] 2 2 4).getD 7 0 = 255 ∧
    (vizBuffer [4, 0, 0, 0] 2 2 4).getD 8 0 = 0 ∧
    (vizBuffer [4, 0, 0, 0] 2 2 4).getD 9 0 = 0 ∧
    (vizBuffer [4, 0, 0, 0] 2 2 4).getD 10 0 = 0 ∧
    (vizBuffer [4, 0, 0, 0] 2 2 4).getD 11 0 = 255 := by
  have hmag2 : magnitudeOf (fft2D (grayscaleOf (List.replicate 16 255) 2 2) 2 2) 2 2 =
      [4, 0, 0, 0] := by
    rw [grayscale_white, fft2D_white, mag_white]
  have hval : ∀ x y c : ℕ, x < 2 → y < 2 → c < 4 →
      (vizBuffer [4, 0, 0, 0] 2 2 4).getD ((y * 2 + x) * 4 + c) 0 =
        destVal [4, 0, 0, 0] 2 2 4 y x c :=
    fun x y c hx hy hc => val_vizBuffer _ 2 2 _ x y c hx hy hc
  have hdest255 : ∀ c, c < 3 → destVal ([4, 0, 0, 0] : List ℝ) 2 2 4 1 1 c = 255 := by
    intro c hc
    unfold destVal
    rw [if_neg (by omega)]
    norm_num [List.getD]
    exact intensityOf_4_4
  have halpha : ∀ y x : ℕ, destVal ([4, 0, 0, 0] : List ℝ) 2 2 4 y x 3 = 255 := by
    intro y x
    unfold destVal
    rw [if_pos rfl]
  have hdest0 : ∀ y x c, y < 2 → x < 2 → ¬ (x = 1 ∧ y = 1) → c < 3 →
      destVal ([4, 0, 0, 0] : List ℝ) 2 2 4 y x c = 0 := by
    intro y x c hy hx hne hc
    unfold destVal
    rw [if_neg (by omega)]
    interval_cases x <;> interval_cases y
    · norm_num [List.getD]
      exact intensityOf_zero 4
    · norm_num [List.getD]
      exact intensityOf_zero 4
    · norm_num [List.getD]
      exact intensityOf_zero 4
    · exact absurd ⟨rfl, rfl⟩ hne
  refine ⟨grayscale_white, ?_, hmag2, ?_, ?_, ?_, ?_, ?_, ?_, ?_, ?_, ?_, ?_, ?_,
    ?_, ?_, ?_, ?_, ?_, ?_⟩
  · rw [grayscale_white]
    exact fft2D_white
  · rw [hmag2]
    exact maxMag_white
  · have h := hval 1 1 0 (by norm_num) (by norm_num) (by norm_num)
    rw [show ((1 * 2 + 1) * 4 + 0) = 12 from by norm_num] at h
    rw [h]
    exact hdest255 0 (by norm_num)
  · have h := hval 1 1 1 (by norm_num) (by norm_num) (by norm_num)
    rw [show ((1 * 2 + 1) * 4 + 1) = 13 from by norm_num] at h
    rw [h]
    exact hdest255 1 (by norm_num)
  · have h := hval 1 1 2 (by norm_num) (by norm_num) (by norm_num)
    rw [show ((1 * 2 + 1) * 4 + 2) = 14 from by norm_num] at h
    rw [h]
    exact hdest255 2 (by norm_num)
  · have h := hval 1 1 3 (by norm_num) (by norm_num) (by norm_num)
    rw [show ((1 * 2 + 1) * 4 + 3) = 15 from by norm_num] at h
    rw [h]
    exact halpha 1 1
  · have h := hval 0 0 0 (by norm_num) (by norm_num) (by norm_num)
    rw [show ((0 * 2 + 0) * 4 + 0) = 0 from by norm_num] at h
    rw [h]
    exact hdest0 0 0 0 (by norm_num) (by norm_num) (by norm_num) (by norm_num)
  · have h := hval 0 0 1 (by norm_num) (by norm_num) (by norm_num)
    rw [show ((0 * 2 + 0) * 4 + 1) = 1 from by norm_num] at h
    rw [h]
    exact hdest0 0 0 1 (by norm_num) (by norm_num) (by norm_num) (by norm_num)
  · have h := hval 0 0 2 (by norm_num) (by norm_num) (by norm_num)
    rw [show ((0 * 2 + 0) * 4 + 2) = 2 from by norm_num] at h
    rw [h]
    exact hdest0 0 0 2 (by norm_num) (by norm_num) (by norm_num) (by norm_num)
  · have h := hval 0 0 3 (by norm_num) (by norm_num) (by norm_num)
    rw [show ((0 * 2 + 0) * 4 + 3) = 3 from by norm_num] at h
    rw [h]
    exact halpha 0 0
  · have h := hval 1 0 0 (by norm_num) (by norm_num) (by norm_num)
    rw [show ((0 * 2 + 1) * 4 + 0) = 4 from by norm_num] at h
    rw [h]
    exact hdest0 0 1 0 (by norm_num) (by norm_num) (by norm_num) (by norm_num)
  · have h := hval 1 0 1 (by norm_num) (by norm_num) (by norm_num)
    rw [show ((0 * 2 + 1) * 4 + 1) = 5 from by norm_num] at h
    rw [h]
    exact hdest0 0 1 1 (by norm_num) (by norm_num) (by norm_num) (by norm_num)
  · have h := hval 1 0 2 (by norm_num) (by norm_num) (by norm_num)
    rw [show ((0 * 2 + 1) * 4 + 2) = 6 from by norm_num] at h
    rw [h]
    exact hdest0 0 1 2 (by norm_num) (by norm_num) (by norm_num) (by norm_num)
  · have h := hval 1 0 3 (by norm_num) (by norm_num) (by norm_num)
    rw [show ((0 * 2 + 1) * 4 + 3) = 7 from by norm_num] at h
    rw [h]
    exact halpha 0 1
  · have h := hval 0 1 0 (by norm_num) (by norm_num) (by norm_num)
    rw [show ((1 * 2 + 0) * 4 + 0) = 8 from by norm_num] at h
    rw [h]
    exact hdest0 1 0 0 (by norm_num) (by norm_num) (by norm_num) (by norm_num)
  · have h := hval 0 1 1 (by norm_num) (by norm_num) (by norm_num)
    rw [show ((1 * 2 + 0) * 4 + 1) = 9 from by norm_num] at h
    rw [h]
    exact hdest0 1 0 1 (by norm_num) (by norm_num) (by norm_num) (by norm_num)
  · have h := hval 0 1 2 (by norm_num) (by norm_num) (by norm_num)
    rw [show ((1 * 2 + 0) * 4 + 2) = 10 from by norm_num] at h
    rw [h]
    exact hdest0 1 0 2 (by norm_num) (by norm_num) (by norm_num) (by norm_num)
  · have h := hval 0 1 3 (by norm_num) (by norm_num) (by norm_num)
    rw [show ((1 * 2 + 0) * 4 + 3) = 11 from by norm_num] at h
    rw [h]
    exact halpha 1 0

/-- C4: for every destination pixel `(x, y)` of the visualization buffer with
image extents `W×H` (`W, H ≥ 1`), the source spectrum cell read for the R, G
and B channels is `srcIndex = srcY·W + srcX` with `srcX = (x + W/2) mod W`
and `srcY = (y + H/2) mod H` (the fftshift recentring; `W/2` is the floored
half-extent, as in the source's `Math.floor(width/2)`). -/
theorem C4_fftshift_source_index (mag : List ℝ) (w h : ℕ) (maxMag : ℝ)
    (x y c : ℕ) (hw : 1 ≤ w) (hh : 1 ≤ h) (hx : x < w) (hy : y < h)
    (hc : c < 3) :
    (vizBuffer mag w h maxMag).getD ((y * w + x) * 4 + c) 0 =
      intensityOf (mag.getD (((y + h / 2) % h) * w + (x + w / 2) % w) 0)
        maxMag := by
  rw [val_vizBuffer mag w h maxMag x y c hx hy (by omega)]
  unfold destVal
  rw [if_neg (by omega)]

theorem C4_witness :
    (vizBuffer [(4 : ℝ), 0, 0, 0] 2 2 4).getD ((1 * 2 + 1) * 4 + 0) 0 =
      intensityOf (([(4 : ℝ), 0, 0, 0]).getD (((1 + 2 / 2) % 2) * 2 +
        (1 + 2 / 2) % 2) 0) 4 :=
  C4_fftshift_source_index [4, 0, 0, 0] 2 2 4 1 1 0 (by decide) (by decide)
    (by decide) (by decide) (by decide)

/-- C5: with a magnitude spectrum bounded by its maximum `maxMag > 0`, the
per-pixel intensity is monotone (non-decreasing) in the source magnitude,
lies in `[0, 255]`, is `0` at magnitude `0`, and is written identically into
the R, G and B bytes of the destination pixel with alpha fixed at `255`. -/
theorem C5_intensity_contract (mag : List ℝ) (w h : ℕ) (maxMag : ℝ)
    (x y : ℕ) (hx : x < w) (hy : y < h) (hM : 0 < maxMag)
    (hbound : ∀ i, 0 ≤ mag.getD i 0 ∧ mag.getD i 0 ≤ maxMag) :
    (∀ m1 m2, 0 ≤ m1 → m1 ≤ m2 →
      intensityOf m1 maxMag ≤ intensityOf m2 maxMag) ∧
    intensityOf 0 maxMag = 0 ∧
    (0 ≤ (vizBuffer mag w h maxMag).getD ((y * w + x) * 4) 0 ∧
      (vizBuffer mag w h maxMag).getD ((y * w + x) * 4) 0 ≤ 255) ∧
    (vizBuffer mag w h maxMag).getD ((y * w + x) * 4 + 1) 0 =
      (vizBuffer mag w h maxMag).getD ((y * w + x) * 4) 0 ∧
    (vizBuffer mag w h maxMag).getD ((y * w + x) * 4 + 2) 0 =
      (vizBuffer mag w h maxMag).getD ((y * w + x) * 4) 0 ∧
    (vizBuffer mag w h maxMag).getD ((y * w + x) * 4 + 3) 0 = 255 := by
  have h0 := val_vizBuffer mag w h maxMag x y 0 hx hy (by omega)
  have h1 := val_vizBuffer mag w h maxMag x y 1 hx hy (by omega)
  have h2 := val_vizBuffer mag w h maxMag x y 2 hx hy (by omega)
  have h3 := val_vizBuffer mag w h maxMag x y 3 hx hy (by omega)
  rw [show (y * w + x) * 4 + 0 = (y * w + x) * 4 from by omega] at h0
  have hsrc := hbound (((y + h / 2) % h) * w + (x + w / 2) % w)
  have hd0 : destVal mag w h maxMag y x 0 =
      intensityOf (mag.getD (((y + h / 2) % h) * w + (x + w / 2) % w) 0)
        maxMag := by
    unfold destVal
    rw [if_neg (by omega)]
  have hd1 : destVal mag w h maxMag y x 1 = destVal mag w h maxMag y x 0 := by
    unfold destVal
    rw [if_neg (by omega), if_neg (by omega)]
  have hd2 : destVal mag w h maxMag y x 2 = destVal mag w h maxMag y x 0 := by
    unfold destVal
    rw [if_neg (by omega), if_neg (by omega)]
  have hd3 : destVal mag w h maxMag y x 3 = 255 := by
    unfold destVal
    rw [if_pos rfl]
  refine ⟨fun m1 m2 hm1 hm12 => intensityOf_mono m1 m2 maxMag hm1 hm12 hM,
    intensityOf_zero maxMag, ⟨?_, ?_⟩, ?_, ?_, ?_⟩
  · rw [h0, hd0]
    exact intensityOf_nonneg _ _ hsrc.1 hM
  · rw [h0, hd0]
    exact intensityOf_le_255 _ _ hsrc.1 hsrc.2 hM
  · rw [h1, hd1, h0]
  · rw [h2, hd2, h0]
  · rw [h3, hd3]

theorem C5_witness :
    ((∀ m1 m2 : ℝ, 0 ≤ m1 → m1 ≤ m2 →
      intensityOf m1 4 ≤ intensityOf m2 4) ∧
    intensityOf 0 4 = 0 ∧
    (0 ≤ (vizBuffer [(4 : ℝ), 0, 0, 0] 2 2 4).getD ((0 * 2 + 0) * 4) 0 ∧
      (vizBuffer [(4 : ℝ), 0, 0, 0] 2 2 4).getD ((0 * 2 + 0) * 4) 0 ≤ 255) ∧
    (vizBuffer [(4 : ℝ), 0, 0, 0] 2 2 4).getD ((0 * 2 + 0) * 4 + 1) 0 =
      (vizBuffer [(4 : ℝ), 0, 0, 0] 2 2 4).getD ((0 * 2 + 0) * 4) 0 ∧
    (vizBuffer [(4 : ℝ), 0, 0, 0] 2 2 4).getD ((0 * 2 + 0) * 4 + 2) 0 =
      (vizBuffer [(4 : ℝ), 0, 0, 0] 2 2 4).getD ((0 * 2 + 0) * 4) 0 ∧
    (vizBuffer [(4 : ℝ), 0, 0, 0] 2 2 4).getD ((0 * 2 + 0) * 4 + 3) 0 = 255) :=
  C5_intensity_contract [4, 0, 0, 0] 2 2 4 0 0 (by decide) (by decide)
    (by norm_num)
    (by
      intro i
      match i with
      | 0 => norm_num [List.getD]
      | 1 => norm_num [List.getD]
      | 2 => norm_num [List.getD]
      | 3 => norm_num [List.getD]
      | (n + 4) => norm_num [List.getD])

/-- C6 fails on the code: for the power-of-two length `N = 2` the `N === len`
branch runs the transform in place on the caller's arrays and returns them:
`fft1DAliased` is `true` and the caller's array contents change (`[1,0]`
becomes the transform `[1,1]`). -/
theorem C6_counterexample :
    fft1DAliased ([(1 : ℝ), 0] : List ℝ).length = true ∧
    fft1DInputAfter [(1 : ℝ), 0] [(0 : ℝ), 0] ≠ ([(1 : ℝ), 0], [(0 : ℝ), 0]) := by
  have hpad2 : padLen 2 = 2 := (padLen_eq_self_iff 2).mpr ⟨1, rfl⟩
  have hlen2 : ([(1 : ℝ), 0] : List ℝ).length = 2 := rfl
  constructor
  · rw [hlen2]
    unfold fft1DAliased
    rw [decide_eq_true hpad2]
    simp
  · have hdft1 : dft (fun t => (⟨([(1 : ℝ), 0]).getD t 0,
        ([(0 : ℝ), 0]).getD t 0⟩ : ℂ)) (2 ^ 1) 1 = ⟨1, 0⟩ := by
      unfold dft
      have h2 : (2 : ℕ) ^ 1 = 2 := by norm_num
      rw [h2, Finset.sum_range_succ, Finset.sum_range_one]
      have ha0 : ((1 : ℕ) : ℝ) * ((0 : ℕ) : ℝ) / ((2 : ℕ) : ℝ) = 0 := by
        norm_num
      have ha1 : ((1 : ℕ) : ℝ) * ((1 : ℕ) : ℝ) / ((2 : ℕ) : ℝ) = 1 / 2 := by
        norm_num
      rw [ha0, ha1, E_zero, E_half]
      apply Complex.ext <;> simp
    have hv1 := fft1D_val 1 [(1 : ℝ), 0] [(0 : ℝ), 0] rfl rfl 1 (by decide)
    rw [hdft1] at hv1
    have hval1 : (fft1D [(1 : ℝ), 0] [(0 : ℝ), 0]).1.getD 1 0 = 1 := hv1.1
    have hafter : fft1DInputAfter [(1 : ℝ), 0] [(0 : ℝ), 0] =
        fft1D [(1 : ℝ), 0] [(0 : ℝ), 0] := by
      unfold fft1DInputAfter
      rw [hlen2]
      rw [if_neg (by norm_num), if_pos hpad2]
    intro hcontra
    rw [hafter] at hcontra
    have : (fft1D [(1 : ℝ), 0] [(0 : ℝ), 0]).1 = [(1 : ℝ), 0] :=
      congrArg Prod.fst hcontra
    rw [this] at hval1
    have : (0 : ℝ) = 1 := hval1
    norm_num at this

/-- C6 amended: `fft1D` returns freshly allocated, non-aliased arrays and
leaves the caller's arrays unchanged exactly when `N ≥ 2` is not a power of
two (the padding branch); for `N ≤ 1` it returns the caller's own arrays
(unchanged), and for a power-of-two `N ≥ 2` it transforms the caller's arrays
in place and returns them. -/
theorem C6_amended_aliasing (re im : List ℝ) (him : im.length = re.length) :
    (fft1DAliased re.length = false ↔
      2 ≤ re.length ∧ ¬ ∃ j, re.length = 2 ^ j) ∧
    (re.length ≤ 1 ∨ (¬ ∃ j, re.length = 2 ^ j) →
      fft1DInputAfter re im = (re, im)) ∧
    (∀ j, re.length = 2 ^ j → 2 ≤ re.length →
      fft1DInputAfter re im = fft1D re im) := by
  refine ⟨?_, ?_, ?_⟩
  · unfold fft1DAliased
    rw [Bool.or_eq_false_iff]
    simp only [decide_eq_false_iff_not]
    constructor
    · rintro ⟨ha, hb⟩
      exact ⟨by omega, fun hj => hb ((padLen_eq_self_iff _).mpr hj)⟩
    · rintro ⟨ha, hb⟩
      exact ⟨by omega, fun hp => hb ((padLen_eq_self_iff _).mp hp)⟩
  · rintro (hle | hnp)
    · unfold fft1DInputAfter
      rw [if_pos hle]
    · unfold fft1DInputAfter
      by_cases hle : re.length ≤ 1
      · rw [if_pos hle]
      · rw [if_neg hle, if_neg (fun hp => hnp ((padLen_eq_self_iff _).mp hp))]
  · intro j hj h2
    unfold fft1DInputAfter
    rw [if_neg (by omega), if_pos ((padLen_eq_self_iff _).mpr ⟨j, hj⟩)]

theorem C6_witness :
    ((fft1DAliased ([(1 : ℝ), 0, 0] : List ℝ).length = false ↔
      2 ≤ ([(1 : ℝ), 0, 0] : List ℝ).length ∧
        ¬ ∃ j, ([(1 : ℝ), 0, 0] : List ℝ).length = 2 ^ j) ∧
    (([(1 : ℝ), 0, 0] : List ℝ).length ≤ 1 ∨
        (¬ ∃ j, ([(1 : ℝ), 0, 0] : List ℝ).length = 2 ^ j) →
      fft1DInputAfter [(1 : ℝ), 0, 0] [(0 : ℝ), 0, 0] =
        ([(1 : ℝ), 0, 0], [(0 : ℝ), 0, 0])) ∧
    (∀ j, ([(1 : ℝ), 0, 0] : List ℝ).length = 2 ^ j →
      2 ≤ ([(1 : ℝ), 0, 0] : List ℝ).length →
      fft1DInputAfter [(1 : ℝ), 0, 0] [(0 : ℝ), 0, 0] =
        fft1D [(1 : ℝ), 0, 0] [(0 : ℝ), 0, 0])) :=
  C6_amended_aliasing [1, 0, 0] [0, 0, 0] rfl

/-- C7: every R, G, B value the color-scaling loop writes is
`min(255, max(0, round(original·scale)))` and in particular lies in
`[0, 255]`, for every image and every setting of the three scale factors
(`scale = value/100`). -/
theorem C7_scaled_channels_clamped (red green blue : ℤ)
    (img : ColorAdj.ImageDataM) (j : ℕ) (hj : j % 4 ≠ 3) :
    0 ≤ (ColorAdj.applyToImageData red green blue img).data.getD j 0 ∧
    (ColorAdj.applyToImageData red green blue img).data.getD j 0 ≤ 255 ∧
    (ColorAdj.applyToImageData red green blue img).data.getD j 0 =
      ColorAdj.clampByte (ColorAdj.jsRound ((img.data.getD j 0 : ℚ) *
        (if j % 4 = 0 then (red : ℚ) / 100
         else if j % 4 = 1 then (green : ℚ) / 100
         else (blue : ℚ) / 100))) := by
  have hdata : (ColorAdj.applyToImageData red green blue img).data =
      ColorAdj.adjustData ((red : ℚ) / 100) ((green : ℚ) / 100)
        ((blue : ℚ) / 100) img.data := rfl
  have hget := ColorAdj.getD_adjustData ((red : ℚ) / 100) ((green : ℚ) / 100)
    ((blue : ℚ) / 100) img.data j
  rw [if_neg hj] at hget
  have hcb : ∀ z : ℤ, 0 ≤ ColorAdj.clampByte z ∧ ColorAdj.clampByte z ≤ 255 := by
    intro z
    unfold ColorAdj.clampByte
    omega
  rw [hdata, hget]
  exact ⟨(hcb _).1, (hcb _).2, rfl⟩

theorem C7_witness :
    0 ≤ (ColorAdj.applyToImageData 300 50 0
      ⟨1, 1, [200, 100, 50, 255]⟩).data.getD 0 0 ∧
    (ColorAdj.applyToImageData 300 50 0
      ⟨1, 1, [200, 100, 50, 255]⟩).data.getD 0 0 ≤ 255 ∧
    (ColorAdj.applyToImageData 300 50 0
      ⟨1, 1, [200, 100, 50, 255]⟩).data.getD 0 0 =
      ColorAdj.clampByte (ColorAdj.jsRound
        ((([(200 : ℤ), 100, 50, 255] : List ℤ).getD 0 0 : ℚ) *
          (if 0 % 4 = 0 then ((300 : ℤ) : ℚ) / 100
           else if 0 % 4 = 1 then ((50 : ℤ) : ℚ) / 100
           else ((0 : ℤ) : ℚ) / 100))) :=
  C7_scaled_channels_clamped 300 50 0 ⟨1, 1, [200, 100, 50, 255]⟩ 0 (by decide)

/-- C8: `applyToImageData` returns a buffer with the input's width and height
and the input's byte count, and copies every pixel's alpha byte (offset
`4p + 3`) unchanged — only the R, G, B offsets of each pixel are modified. -/
theorem C8_alpha_and_dims_preserved (red green blue : ℤ)
    (img : ColorAdj.ImageDataM) :
    (ColorAdj.applyToImageData red green blue img).width = img.width ∧
    (ColorAdj.applyToImageData red green blue img).height = img.height ∧
    (ColorAdj.applyToImageData red green blue img).data.length =
      img.data.length ∧
    ∀ p : ℕ, (ColorAdj.applyToImageData red green blue img).data.getD
      (4 * p + 3) 0 = img.data.getD (4 * p + 3) 0 := by
  refine ⟨rfl, rfl, ColorAdj.length_adjustData _ _ _ _, ?_⟩
  intro p
  have hget := ColorAdj.getD_adjustData ((red : ℚ) / 100) ((green : ℚ) / 100)
    ((blue : ℚ) / 100) img.data (4 * p + 3)
  rw [if_pos (by omega)] at hget
  exact hget

/-- C9: `getCropDimensions` is symmetric in the two drag endpoints: on a valid
crop area it returns the rectangle with the coordinate-wise minima as origin
and the absolute differences as extent, so swapping `cropStart` and `cropEnd`
yields the same rectangle. -/
theorem C9_crop_dimensions_symmetric (s e : Crop.Pt)
    (hv : Crop.isValidCropArea (some s) (some e) = true) :
    Crop.getCropDimensions (some s) (some e) =
      some ⟨min s.x e.x, min s.y e.y, |e.x - s.x|, |e.y - s.y|⟩ ∧
    Crop.getCropDimensions (some e) (some s) =
      Crop.getCropDimensions (some s) (some e) := by
  have hv' : Crop.isValidCropArea (some e) (some s) = true := by
    simp only [Crop.isValidCropArea] at hv ⊢
    rw [abs_sub_comm s.x e.x, abs_sub_comm s.y e.y]
    exact hv
  refine ⟨Crop.getCropDimensions_some s e hv, ?_⟩
  rw [Crop.getCropDimensions_some e s hv', Crop.getCropDimensions_some s e hv,
    min_comm e.x s.x, min_comm e.y s.y, abs_sub_comm s.x e.x,
    abs_sub_comm s.y e.y]

theorem C9_witness :
    Crop.getCropDimensions (some ⟨0, 0⟩) (some ⟨10, 20⟩) =
      some ⟨min (0 : ℤ) 10, min (0 : ℤ) 20, |(10 : ℤ) - 0|, |(20 : ℤ) - 0|⟩ ∧
    Crop.getCropDimensions (some ⟨10, 20⟩) (some ⟨0, 0⟩) =
      Crop.getCropDimensions (some ⟨0, 0⟩) (some ⟨10, 20⟩) :=
  C9_crop_dimensions_symmetric ⟨0, 0⟩ ⟨10, 20⟩ (by decide)

/-- C10: `applyCrop` throws exactly when there is no valid crop area (missing
endpoints or a span of 5 pixels or less in either axis) or the selected
rectangle is narrower or shorter than 10 pixels, and a throwing call leaves
the state (canvases and endpoints) unchanged; it mutates only when the
preconditions hold. -/
theorem C10_applyCrop_guard (st : Crop.CropState) :
    ((∃ msg, (Crop.applyCrop st).2 = Except.error msg) ↔
      (¬ Crop.isValidCropArea st.cropStart st.cropEnd = true ∨
        ∃ d, Crop.getCropDimensions st.cropStart st.cropEnd = some d ∧
          (d.width < 10 ∨ d.height < 10))) ∧
    (∀ msg, (Crop.applyCrop st).2 = Except.error msg →
      (Crop.applyCrop st).1 = st) := by
  by_cases hv : Crop.isValidCropArea st.cropStart st.cropEnd = true
  · obtain ⟨sp, ep, hs, he⟩ :
        ∃ sp ep, st.cropStart = some sp ∧ st.cropEnd = some ep := by
      rcases hcs : st.cropStart with _ | sp
      · rw [hcs] at hv
        exact absurd hv (by simp [Crop.isValidCropArea])
      rcases hce : st.cropEnd with _ | ep
      · rw [hcs, hce] at hv
        exact absurd hv (by simp [Crop.isValidCropArea])
      exact ⟨sp, ep, hcs ▸ rfl, hce ▸ rfl⟩
    have hv2 : Crop.isValidCropArea (some sp) (some ep) = true := by
      rw [← hs, ← he]
      exact hv
    have hrect : Crop.getCropDimensions st.cropStart st.cropEnd =
        some ⟨min sp.x ep.x, min sp.y ep.y, |ep.x - sp.x|, |ep.y - sp.y|⟩ := by
      rw [hs, he]
      exact Crop.getCropDimensions_some sp ep hv2
    by_cases hsmall :
        (⟨min sp.x ep.x, min sp.y ep.y, |ep.x - sp.x|, |ep.y - sp.y|⟩ :
          Crop.Rect).width < 10 ∨
        (⟨min sp.x ep.x, min sp.y ep.y, |ep.x - sp.x|, |ep.y - sp.y|⟩ :
          Crop.Rect).height < 10
    · have happly : Crop.applyCrop st = (st, Except.error "Crop area is too small.") := by
        unfold Crop.applyCrop
        rw [if_neg (not_not_intro hv), hrect]
        simp only
        rw [if_pos hsmall]
      rw [happly]
      refine ⟨⟨fun _ => Or.inr ⟨_, hrect, hsmall⟩, fun _ => ⟨_, rfl⟩⟩, ?_⟩
      intro msg _
      rfl
    · have happly : (Crop.applyCrop st).2 =
          Except.ok (Crop.getImageData
            { width := (⟨min sp.x ep.x, min sp.y ep.y, |ep.x - sp.x|,
                |ep.y - sp.y|⟩ : Crop.Rect).width,
              height := (⟨min sp.x ep.x, min sp.y ep.y, |ep.x - sp.x|,
                |ep.y - sp.y|⟩ : Crop.Rect).height,
              pix := fun i j =>
                if 0 ≤ i ∧ i < (⟨min sp.x ep.x, min sp.y ep.y, |ep.x - sp.x|,
                      |ep.y - sp.y|⟩ : Crop.Rect).width ∧
                    0 ≤ j ∧ j < (⟨min sp.x ep.x, min sp.y ep.y, |ep.x - sp.x|,
                      |ep.y - sp.y|⟩ : Crop.Rect).height
                then (Crop.getImageData st.bgCanvas
                    (⟨min sp.x ep.x, min sp.y ep.y, |ep.x - sp.x|,
                      |ep.y - sp.y|⟩ : Crop.Rect).x
                    (⟨min sp.x ep.x, min sp.y ep.y, |ep.x - sp.x|,
                      |ep.y - sp.y|⟩ : Crop.Rect).y
                    (⟨min sp.x ep.x, min sp.y ep.y, |ep.x - sp.x|,
                      |ep.y - sp.y|⟩ : Crop.Rect).width
                    (⟨min sp.x ep.x, min sp.y ep.y, |ep.x - sp.x|,
                      |ep.y - sp.y|⟩ : Crop.Rect).height).pix i j
                else 0 }
            0 0
            (⟨min sp.x ep.x, min sp.y ep.y, |ep.x - sp.x|,
              |ep.y - sp.y|⟩ : Crop.Rect).width
            (⟨min sp.x ep.x, min sp.y ep.y, |ep.x - sp.x|,
              |ep.y - sp.y|⟩ : Crop.Rect).height) := by
        unfold Crop.applyCrop
        rw [if_neg (not_not_intro hv), hrect]
        simp only
        rw [if_neg hsmall]
      constructor
      · constructor
        · rintro ⟨msg, hmsg⟩
          rw [happly] at hmsg
          exact absurd hmsg (by simp)
        · rintro (hbad | ⟨d, hd, hdsmall⟩)
          · exact absurd hv hbad
          · rw [hrect] at hd
            injection hd with hd'
            rw [← hd'] at hdsmall
            exact absurd hdsmall hsmall
      · intro msg hmsg
        rw [happly] at hmsg
        exact absurd hmsg (by simp)
  · have happly : Crop.applyCrop st =
        (st, Except.error "Please select a crop area first.") := by
      unfold Crop.applyCrop
      rw [if_pos hv]
    rw [happly]
    refine ⟨⟨fun _ => Or.inl hv, fun _ => ⟨_, rfl⟩⟩, ?_⟩
    intro msg _
    rfl

theorem C10_witness :
    (Crop.applyCrop ⟨none, none, ⟨1, 1, fun _ _ => 0⟩, 1, 1⟩).1 =
      ⟨none, none, ⟨1, 1, fun _ _ => 0⟩, 1, 1⟩ :=
  (C10_applyCrop_guard ⟨none, none, ⟨1, 1, fun _ _ => 0⟩, 1, 1⟩).2
    "Please select a crop area first." rfl
